import Mathlib

/-!
Verification of the traffic-aware A* route planner.

This file is a shallow embedding, in Lean 4, of the Python sources
`traffic_light.py`, `road_network.py` and `astar.py`.  Python floats are
modelled by rationals (the programs only add, subtract, multiply, divide
and compare, so exact rational arithmetic is a faithful model of every
value the claims talk about), Python dictionaries by association lists or
by explicit update functions, and the Python list used by `heapq` by a
Lean list indexed with `getD` / `set`.
-/

/-- Python's `%` operator on floats with the conventions used by the
sources: floored division, so the result has the sign of the modulus and,
for a positive modulus `m`, lies in `[0, m)`. -/
def pymod (a m : ℚ) : ℚ := a - m * (⌊a / m⌋ : ℚ)

/-- Signal record, from `traffic_light.py` (`@dataclass TrafficLight`). -/
structure TrafficLight where
  node_id : Int
  cycle_time : ℚ
  green_time : ℚ
  red_time : ℚ
  current_phase : String
  phase_start_time : ℚ
  deriving DecidableEq, Repr

/-- Well-formedness of a registered signal: a positive cycle, a green
duration inside the cycle, and the red duration derived as
cycle − green.  The last equation holds for every signal the program can
register: `add_traffic_light` always stores
`green_time = cycle_time * green_ratio` and
`red_time = cycle_time * (1 - green_ratio)`. -/
def TrafficLight.wf (tl : TrafficLight) : Prop :=
  0 < tl.cycle_time ∧ 0 ≤ tl.green_time ∧ tl.green_time ≤ tl.cycle_time ∧
    tl.red_time = tl.cycle_time - tl.green_time

instance (tl : TrafficLight) : Decidable tl.wf := by
  unfold TrafficLight.wf; infer_instance

/-- The predictor state: its dictionary of signals keyed by directed edge,
from `TrafficLightPredictor.__init__` (the default initializer registers
no signals). -/
structure TrafficLightPredictor where
  traffic_lights : List ((Int × Int) × TrafficLight)
  deriving DecidableEq, Repr

/-- Registration of one signal, from
`TrafficLightPredictor.add_traffic_light`.  The two `random` draws of the
original (initial phase and phase anchor) are explicit parameters here;
everything else is computed exactly as in the source. -/
def TrafficLightPredictor.add_traffic_light (p : TrafficLightPredictor)
    (from_node to_node : Int) (cycle_time green_ratio : ℚ)
    (initial_phase : String) (phase_start_time : ℚ) : TrafficLightPredictor :=
  let green_time := cycle_time * green_ratio
  let red_time := cycle_time * (1 - green_ratio)
  { traffic_lights :=
      ((from_node, to_node),
        { node_id := from_node
          cycle_time := cycle_time
          green_time := green_time
          red_time := red_time
          current_phase := initial_phase
          phase_start_time := phase_start_time }) ::
        (p.traffic_lights.filter (fun kv => kv.1 ≠ (from_node, to_node))) }

/-- Wait time at a signalised directed edge, from
`TrafficLightPredictor.get_wait_time`.  Translated clause by clause from
the source; `pymod` is Python's `%`. -/
def TrafficLightPredictor.get_wait_time (p : TrafficLightPredictor)
    (from_node to_node : Int) (current_time : ℚ) : ℚ :=
  match (p.traffic_lights.lookup (from_node, to_node)) with
  | none => 0
  | some traffic_light =>
    let cycle_position :=
      pymod (current_time - traffic_light.phase_start_time) traffic_light.cycle_time
    if traffic_light.current_phase = "green" then
      if cycle_position < traffic_light.green_time then
        let remaining_green := traffic_light.green_time - cycle_position
        if remaining_green > 5 then 0
        else traffic_light.red_time
      else
        traffic_light.cycle_time - cycle_position
    else
      if cycle_position < traffic_light.red_time then
        traffic_light.red_time - cycle_position
      else 0

/-- Graph node, from `road_network.py` (`@dataclass Node`). -/
structure Node where
  node_id : Int
  lat : ℚ
  lon : ℚ
  name : Option String := none
  deriving DecidableEq, Repr, Inhabited

/-- The road-network state used by the search: the node dictionary and the
edge-distance dictionary, exactly the two dictionaries of `RoadNetwork`
when it serves as graph provider in dummy mode (`self.graph is None`), the
only mode whose behaviour is fully contained in the sources. -/
structure RoadNetwork where
  nodes : List (Int × Node)
  edges : List ((Int × Int) × ℚ)
  deriving DecidableEq, Repr

/-- From `RoadNetwork.get_node`. -/
def RoadNetwork.get_node (net : RoadNetwork) (node_id : Int) : Option Node :=
  net.nodes.lookup node_id

/-- From `RoadNetwork.has_node`. -/
def RoadNetwork.has_node (net : RoadNetwork) (node_id : Int) : Bool :=
  (net.nodes.lookup node_id).isSome

/-- From `RoadNetwork.get_neighbors` (the dummy-network branch: scan the
edge keys in order and collect the targets of edges leaving the node). -/
def RoadNetwork.get_neighbors (net : RoadNetwork) (node_id : Int) : List Int :=
  net.edges.filterMap (fun kv => if kv.1.1 = node_id then some kv.1.2 else none)

/-- From `RoadNetwork.get_edge_distance`. -/
def RoadNetwork.get_edge_distance (net : RoadNetwork)
    (from_node_id to_node_id : Int) : Option ℚ :=
  net.edges.lookup (from_node_id, to_node_id)

/-- Frontier entry, from `astar.py` (`@dataclass PathNode`).  Costs are
`WithTop ℚ` on the heuristic side because the source uses `float('inf')`
for missing nodes; the accumulated `g_cost` of the source is always a
finite float, hence a plain rational here.  The `parent` back-reference of
the source (never read by the algorithm, which reconstructs through the
`parents` dictionary) is kept as the parent's node id. -/
structure PathNode where
  node_id : Int
  g_cost : ℚ
  h_cost : WithTop ℚ
  parent : Option Int := none
  deriving DecidableEq, Inhabited

/-- From `PathNode.f_cost`: f = g + h. -/
def PathNode.f_cost (n : PathNode) : WithTop ℚ :=
  (n.g_cost : WithTop ℚ) + n.h_cost

/-- From `PathNode.__lt__`: comparison by total cost, as used by `heapq`. -/
def pnLt (a b : PathNode) : Bool :=
  decide (a.f_cost < b.f_cost)

/-- CPython `heapq._siftdown`, with the already-read `newitem` made
explicit (`_siftdown` reads it from `heap[pos]` on entry; both call sites
below pass exactly that value) and the loop bounded by a structural fuel
counter: walk up from `pos` toward `startpos`, moving parents down, and
place `newitem` at the final position.  The hole position strictly
decreases at each turn, so any fuel ≥ pos makes the bounded loop equal to
the unbounded one; the fuel-exhausted case performs exactly the loop's
exit action, so exhaustion (never reached from the wrapper below) would
anyway coincide with an immediate exit. -/
def heapSiftdownGo (startpos : Nat) :
    Nat → List PathNode → Nat → PathNode → List PathNode
  | 0, heap, pos, newitem => heap.set pos newitem
  | fuel + 1, heap, pos, newitem =>
    if startpos < pos then
      let parentpos := (pos - 1) / 2
      let parent := heap.getD parentpos default
      if pnLt newitem parent then
        heapSiftdownGo startpos fuel (heap.set pos parent) parentpos newitem
      else heap.set pos newitem
    else heap.set pos newitem

/-- CPython `heapq._siftdown`: the bounded loop with sufficient fuel. -/
def heapSiftdownLoop (heap : List PathNode) (startpos pos : Nat)
    (newitem : PathNode) : List PathNode :=
  heapSiftdownGo startpos pos heap pos newitem

/-- CPython `heapq._siftup` (with `newitem = heap[pos]` explicit and the
same bounded-loop treatment; the hole position strictly increases toward
`endpos`, so fuel = endpos suffices, and the fuel-exhausted case again
performs the loop's exit action): bubble the smaller child up into the
hole at `pos` until a leaf level, then place `newitem` there and restore
the invariant with `_siftdown`. -/
def heapSiftupGo (startpos endpos : Nat) :
    Nat → List PathNode → Nat → PathNode → List PathNode
  | 0, heap, pos, newitem =>
    heapSiftdownLoop (heap.set pos newitem) startpos pos newitem
  | fuel + 1, heap, pos, newitem =>
    let childpos := 2 * pos + 1
    if childpos < endpos then
      let rightpos := childpos + 1
      if rightpos < endpos ∧
          ¬ pnLt (heap.getD childpos default) (heap.getD rightpos default) then
        heapSiftupGo startpos endpos fuel
          (heap.set pos (heap.getD rightpos default)) rightpos newitem
      else
        heapSiftupGo startpos endpos fuel
          (heap.set pos (heap.getD childpos default)) childpos newitem
    else
      heapSiftdownLoop (heap.set pos newitem) startpos pos newitem

/-- CPython `heapq._siftup`: the bounded loop with sufficient fuel. -/
def heapSiftupLoop (heap : List PathNode) (startpos pos endpos : Nat)
    (newitem : PathNode) : List PathNode :=
  heapSiftupGo startpos endpos endpos heap pos newitem

/-- CPython `heapq.heappush`: append, then sift down from the new slot. -/
def heappush (heap : List PathNode) (item : PathNode) : List PathNode :=
  heapSiftdownLoop (heap ++ [item]) 0 heap.length item

/-- CPython `heapq.heappop`: pop the last element; if the heap is still
nonempty, remember the root, overwrite it with the popped last element and
sift up.  Popping an empty heap raises in Python, modelled by `none`. -/
def heappop (heap : List PathNode) : Option (PathNode × List PathNode) :=
  if heap.length = 0 then none
  else
    let lastelt := heap.getD (heap.length - 1) default
    let rest := heap.dropLast
    if rest.length = 0 then some (lastelt, rest)
    else
      some (rest.getD 0 default,
        heapSiftupLoop (rest.set 0 lastelt) 0 0 rest.length lastelt)

/-- The pathfinder, from `astar.py` (`AStarPathfinder.__init__`), holding
the two collaborators.  The third field abstracts the one genuinely
non-rational computation of the source, the Euclidean-distance kernel of
`heuristic` (`sqrt(lat_diff²+lon_diff²) * 111000`): its value is
irrational in general, so it is carried as an arbitrary function of the
two node records.  Every claim proved below holds for every such kernel,
hence in particular for the square-root one. -/
structure AStarPathfinder where
  road_network : RoadNetwork
  traffic_predictor : TrafficLightPredictor
  euclid : Node → Node → ℚ

/-- From `AStarPathfinder.heuristic`: infinity when either node is
missing, otherwise the Euclidean-distance kernel. -/
def AStarPathfinder.heuristic (pf : AStarPathfinder)
    (node1_id node2_id : Int) : WithTop ℚ :=
  match pf.road_network.get_node node1_id, pf.road_network.get_node node2_id with
  | some node1, some node2 => ((pf.euclid node1 node2 : ℚ) : WithTop ℚ)
  | _, _ => ⊤

/-- From `AStarPathfinder.get_edge_cost`: infinity when the edge has no
distance, otherwise static distance plus wait time converted to meters at
the assumed speed 13.89 m/s. -/
def AStarPathfinder.get_edge_cost (pf : AStarPathfinder)
    (from_node_id to_node_id : Int) (current_time : ℚ) : WithTop ℚ :=
  match pf.road_network.get_edge_distance from_node_id to_node_id with
  | none => ⊤
  | some distance =>
    let wait_time :=
      pf.traffic_predictor.get_wait_time from_node_id to_node_id current_time
    let average_speed : ℚ := 1389 / 100
    let wait_distance := wait_time * average_speed
    ((distance + wait_distance : ℚ) : WithTop ℚ)

/-- The mutable state of one `find_path` run: the frontier, the closed
set (a Python `set`, modelled as the list of its elements in reverse
insertion order, which never holds duplicates), the two dictionaries
`g_costs` and `parents` (modelled as update functions), the three stats
counters, and the single simulated clock.  The extra `queries` field is a
write-only trace recording, per edge considered during expansion, the
endpoints and the clock value at which the wait-time oracle was queried;
it exists only so that theorems can speak about the clock discipline and
influences nothing. -/
structure SearchState where
  open_list : List PathNode
  closed_set : List Int
  g_costs : Int → Option ℚ
  parents : Int → Option Int
  nodes_explored : Nat
  traffic_lights_encountered : Nat
  total_wait_time : ℚ
  current_time : ℚ
  queries : List (Int × Int × ℚ)

/-- The `stats` dictionary as `find_path` returns it, in insertion
order. -/
def renderStats (st : SearchState) : List (String × ℚ) :=
  [("nodes_explored", (st.nodes_explored : ℚ)),
   ("traffic_lights_encountered", (st.traffic_lights_encountered : ℚ)),
   ("total_wait_time", st.total_wait_time)]

/-- The body of the inner `for neighbor_id in neighbors` loop of
`AStarPathfinder.find_path` for a neighbor that passed the closed-set and
infinite-cost checks, one clause per statement of the source: query the
wait time and accumulate signal stats, record the ghost query-trace
entry, relax and push on improvement, and finally advance the simulated
clock by travel time.  The lookup `g_costs[current.node_id]` of the
source is total here via `getD 0`; the invariant that every popped node
has a `g_costs` entry (proved below) makes the default unreachable,
exactly as the Python `KeyError` is. -/
def considerNeighbor (pf : AStarPathfinder) (goal_id : Int) (current : PathNode)
    (neighbor_id : Int) (st : SearchState) : SearchState :=
  let ec : ℚ :=
    (pf.get_edge_cost current.node_id neighbor_id st.current_time).untop' 0
  let wait_time :=
    pf.traffic_predictor.get_wait_time current.node_id neighbor_id st.current_time
  let st1 :=
    if wait_time > 0 then
      { st with
        traffic_lights_encountered := st.traffic_lights_encountered + 1,
        total_wait_time := st.total_wait_time + wait_time }
    else st
  let st2 :=
    { st1 with
      queries := st1.queries ++ [(current.node_id, neighbor_id, st.current_time)] }
  let tentative_g_cost := (st.g_costs current.node_id).getD 0 + ec
  let improve : Bool :=
    match st.g_costs neighbor_id with
    | none => true
    | some g => decide (tentative_g_cost < g)
  let st3 :=
    if improve then
      { st2 with
        g_costs := fun n =>
          if n = neighbor_id then some tentative_g_cost else st2.g_costs n,
        parents := fun n =>
          if n = neighbor_id then some current.node_id else st2.parents n,
        open_list := heappush st2.open_list
          { node_id := neighbor_id
            g_cost := tentative_g_cost
            h_cost := pf.heuristic neighbor_id goal_id
            parent := some current.node_id } }
    else st2
  let travel_time := ec / (1389 / 100)
  { st3 with current_time := st3.current_time + travel_time }

/-- The `for neighbor_id in neighbors` loop: skip closed neighbors, skip
infinite edges, otherwise process the considered edge. -/
def expandNeighbors (pf : AStarPathfinder) (goal_id : Int) (current : PathNode) :
    List Int → SearchState → SearchState
  | [], st => st
  | neighbor_id :: rest, st =>
    if neighbor_id ∈ st.closed_set then
      expandNeighbors pf goal_id current rest st
    else
      let edge_cost := pf.get_edge_cost current.node_id neighbor_id st.current_time
      if edge_cost = ⊤ then
        expandNeighbors pf goal_id current rest st
      else
        expandNeighbors pf goal_id current rest
          (considerNeighbor pf goal_id current neighbor_id st)

/-- The `while node_id is not None` reconstruction loop of the source,
run with explicit fuel (the source loop terminates because the parent
chain is acyclic, which is proved below; fuel exhaustion is therefore
unreachable at the call site in the search loop). -/
def reconstructPath (parents : Int → Option Int) : Nat → Int → List Int
  | 0, _ => []
  | fuel + 1, node_id =>
    node_id ::
      (match parents node_id with
       | none => []
       | some p => reconstructPath parents fuel p)

/-- The `while open_list` loop of `AStarPathfinder.find_path`, with
explicit fuel (the loop provably terminates; `find_path` passes enough
fuel, as proved below).  Returns the result triple together with the
final search state, which `find_path` discards. -/
def searchLoop (pf : AStarPathfinder) (goal_id : Int) :
    Nat → SearchState →
      (List Int × WithTop ℚ × List (String × ℚ)) × SearchState
  | 0, st => (([], ⊤, renderStats st), st)
  | fuel + 1, st =>
    match heappop st.open_list with
    | none => (([], ⊤, renderStats st), st)
    | some (current, rest) =>
      if current.node_id = goal_id then
        (((reconstructPath st.parents (st.closed_set.length + 1) goal_id).reverse,
            ((current.g_cost : ℚ) : WithTop ℚ), renderStats st), st)
      else if current.node_id ∈ st.closed_set then
        searchLoop pf goal_id fuel { st with open_list := rest }
      else
        let st1 :=
          { st with
            open_list := rest,
            closed_set := current.node_id :: st.closed_set,
            nodes_explored := st.nodes_explored + 1 }
        let st2 := expandNeighbors pf goal_id current
          (pf.road_network.get_neighbors current.node_id) st1
        searchLoop pf goal_id fuel st2

/-- The initial search state built by `find_path` before its loop: the
frontier holds one entry for the start node (pushed with `heappush`, as in
the source), `g_costs = {start: 0}`, empty parents, zeroed stats, and the
clock at `start_time`. -/
def initState (pf : AStarPathfinder) (start_id goal_id : Int)
    (start_time : ℚ) : SearchState :=
  { open_list := heappush []
      { node_id := start_id
        g_cost := 0
        h_cost := pf.heuristic start_id goal_id }
    closed_set := []
    g_costs := fun n => if n = start_id then some 0 else none
    parents := fun _ => none
    nodes_explored := 0
    traffic_lights_encountered := 0
    total_wait_time := 0
    current_time := start_time
    queries := [] }

/-- Fuel that always suffices for the search loop (proved below): one
pop per possible push, plus the terminating empty-frontier iteration. -/
def searchFuel (pf : AStarPathfinder) : Nat :=
  pf.road_network.edges.length + 2

/-- The whole of `AStarPathfinder.find_path` including its final state: the trivial
start == goal shortcut, then the endpoint precondition check, then the
search loop.  In the two early-return branches the state component is the
initial state (whose query trace is empty); the source has no loop state
there at all. -/
def AStarPathfinder.find_path_run (pf : AStarPathfinder)
    (start_id goal_id : Int) (start_time : ℚ) :
    (List Int × WithTop ℚ × List (String × ℚ)) × SearchState :=
  if start_id = goal_id then
    (([start_id], ((0 : ℚ) : WithTop ℚ), []), initState pf start_id goal_id start_time)
  else if ¬ pf.road_network.has_node start_id ∨ ¬ pf.road_network.has_node goal_id then
    (([], ⊤, []), initState pf start_id goal_id start_time)
  else
    searchLoop pf goal_id (searchFuel pf) (initState pf start_id goal_id start_time)

/-- The operation `AStarPathfinder.find_path` exactly as the caller sees it. -/
def AStarPathfinder.find_path (pf : AStarPathfinder)
    (start_id goal_id : Int) (start_time : ℚ) :
    List Int × WithTop ℚ × List (String × ℚ) :=
  (pf.find_path_run start_id goal_id start_time).1

/-- A concrete two-node network: nodes 1 and 2, one directed edge (1,2)
of 1000 m. -/
def exNet : RoadNetwork :=
  { nodes := [(1, ⟨1, 0, 0, none⟩), (2, ⟨2, 0, 1, none⟩)],
    edges := [((1, 2), 1000)] }

/-- A pathfinder over `exNet` with no signals and a zero heuristic
kernel. -/
def exPf : AStarPathfinder :=
  { road_network := exNet, traffic_predictor := ⟨[]⟩, euclid := fun _ _ => 0 }

/-- The finite value of an edge cost (the cost is infinite only when the
edge is absent, in which case the search never uses this value). -/
def edgeCostQ (pf : AStarPathfinder) (u v : Int) (t : ℚ) : ℚ :=
  (pf.get_edge_cost u v t).untop' 0

/-- The tentative g-cost computed for a considered neighbor. -/
def tentativeG (pf : AStarPathfinder) (current : PathNode)
    (neighbor_id : Int) (st : SearchState) : ℚ :=
  (st.g_costs current.node_id).getD 0 +
    edgeCostQ pf current.node_id neighbor_id st.current_time

/-- Specification predicate for C8, modelled from the claim's words: the
query trace starts at the given clock value, each considered edge is
queried at the clock value accumulated so far, and the clock advances by
edge cost divided by the assumed speed (13.89 m/s) after each considered
edge, in order. -/
def ClockChain (pf : AStarPathfinder) : ℚ → List (Int × Int × ℚ) → Prop
  | _, [] => True
  | t, (u, v, q) :: rest =>
    q = t ∧ ClockChain pf (t + edgeCostQ pf u v t / (1389 / 100)) rest

/-- The clock value reached after a list of considered edges, starting
from a given clock value, advancing as the claim describes. -/
def clockAfter (pf : AStarPathfinder) : ℚ → List (Int × Int × ℚ) → ℚ
  | t, [] => t
  | t, (u, v, _) :: rest =>
    clockAfter pf (t + edgeCostQ pf u v t / (1389 / 100)) rest

/-- Sum of the static edge distances read along a path written in
*reverse* travel order (as the reconstruction loop emits it: goal first,
start last); each consecutive pair (a, b) of the list contributes the
distance of the directed edge b → a.  Missing edges contribute 0. -/
def revSum (net : RoadNetwork) : List Int → ℚ
  | a :: b :: t => ((net.get_edge_distance b a).getD 0) + revSum net (b :: t)
  | _ => 0

/-- Sum of the static edge distances along a path in travel order. -/
def pathStaticSum (net : RoadNetwork) : List Int → ℚ
  | a :: b :: t => ((net.get_edge_distance a b).getD 0) + pathStaticSum net (b :: t)
  | _ => 0

/-- The parent chain from v reaches the start node within n steps. -/
def ChainLe (parents : Int → Option Int) (start : Int) : Nat → Int → Prop
  | 0, v => v = start
  | n + 1, v => v = start ∨ ∃ u, parents v = some u ∧ ChainLe parents start n u

/-- The run invariant maintained by the search loop from the moment the
start node is closed, carrying everything the cost bound needs. -/
structure SearchInv (pf : AStarPathfinder) (start_id : Int)
    (st : SearchState) : Prop where
  gstart : st.g_costs start_id = some 0
  pstart : st.parents start_id = none
  startClosed : start_id ∈ st.closed_set
  heapG : ∀ e ∈ st.open_list, ∃ gv, st.g_costs e.node_id = some gv ∧ gv ≤ e.g_cost
  closedG : ∀ v ∈ st.closed_set, ∃ gv, st.g_costs v = some gv
  domParents : ∀ v gv, st.g_costs v = some gv → v ≠ start_id →
    ∃ u, st.parents v = some u
  parentInv : ∀ v u, st.parents v = some u → u ∈ st.closed_set ∧
    ∃ gv gu d, st.g_costs v = some gv ∧ st.g_costs u = some gu ∧
      pf.road_network.get_edge_distance u v = some d ∧ gu + d ≤ gv
  chainBound : ∀ v ∈ st.closed_set,
    ChainLe st.parents start_id (st.closed_set.length - 1) v

/-- The improvement condition of the relaxation step: the neighbor is
unseen, or the tentative cost strictly beats its best known cost. -/
def improves (pf : AStarPathfinder) (current : PathNode)
    (neighbor_id : Int) (st : SearchState) : Prop :=
  st.g_costs neighbor_id = none ∨
    ∃ g0, st.g_costs neighbor_id = some g0 ∧
      tentativeG pf current neighbor_id st < g0

/-- Reachability in the graph provider along the neighbor lists, from
the start node. -/
inductive Reaches (net : RoadNetwork) (start : Int) : Int → Prop
  | refl : Reaches net start start
  | step : ∀ u v, Reaches net start u → v ∈ net.get_neighbors u →
      Reaches net start v

/-- The run invariant for the unreachable-goal analysis (C4), holding
from the moment the start node is closed. -/
structure ReachInv (pf : AStarPathfinder) (start_id : Int)
    (st : SearchState) : Prop where
  startIn : start_id ∈ st.closed_set ∨
    ∃ e ∈ st.open_list, e.node_id = start_id
  closedNodup : st.closed_set.Nodup
  countEq : st.nodes_explored = st.closed_set.length
  closedReach : ∀ v ∈ st.closed_set, Reaches pf.road_network start_id v
  heapReach : ∀ e ∈ st.open_list, Reaches pf.road_network start_id e.node_id
  domCover : ∀ v, st.g_costs v ≠ none →
    v ∈ st.closed_set ∨ ∃ e ∈ st.open_list, e.node_id = v
  nbrCover : ∀ u ∈ st.closed_set, ∀ v ∈ pf.road_network.get_neighbors u,
    v ∈ st.closed_set ∨ st.g_costs v ≠ none

/-- Frontier-plus-unexplored-edges potential: strictly decreases at every
loop iteration, bounding the number of iterations. -/
def phi (pf : AStarPathfinder) (st : SearchState) : Nat :=
  st.open_list.length +
    pf.road_network.edges.countP (fun kv => decide (kv.1.1 ∉ st.closed_set))

/-- A concrete disconnected network: nodes 1, 2, 3; edges only between 1
and 2 (both directions), node 3 isolated. -/
def exNet2 : RoadNetwork :=
  { nodes := [(1, ⟨1, 0, 0, none⟩), (2, ⟨2, 0, 1, none⟩), (3, ⟨3, 1, 1, none⟩)],
    edges := [((1, 2), 1000), ((2, 1), 1000)] }

/-- A pathfinder over the disconnected network, no signals. -/
def exPf2 : AStarPathfinder :=
  { road_network := exNet2, traffic_predictor := ⟨[]⟩, euclid := fun _ _ => 0 }

/-- For a positive modulus, `pymod` is nonnegative. -/
theorem pymod_nonneg (a m : ℚ) (hm : 0 < m) : 0 ≤ pymod a m := by
  have h := Int.floor_le (a / m)
  have h2 : m * (⌊a / m⌋ : ℚ) ≤ m * (a / m) := by
    exact mul_le_mul_of_nonneg_left h (le_of_lt hm)
  have h3 : m * (a / m) = a := by field_simp
  unfold pymod; nlinarith

/-- For a positive modulus, `pymod` is below the modulus. -/
theorem pymod_lt (a m : ℚ) (hm : 0 < m) : pymod a m < m := by
  have h := Int.lt_floor_add_one (a / m)
  have h2 : m * (a / m) < m * ((⌊a / m⌋ : ℚ) + 1) := by
    exact mul_lt_mul_of_pos_left h hm
  have h3 : m * (a / m) = a := by field_simp
  unfold pymod; nlinarith

/-- Shifting the argument by an integer multiple of the modulus does not
change `pymod`. -/
theorem pymod_add_int_mul (a m : ℚ) (k : ℤ) (hm : m ≠ 0) :
    pymod (a + (k : ℚ) * m) m = pymod a m := by
  unfold pymod
  have hdiv : (a + (k : ℚ) * m) / m = a / m + (k : ℚ) := by
    field_simp
  rw [hdiv, Int.floor_add_int]
  push_cast
  ring

/-- Helper shared by several claims: a well-formed registered signal never
reports a negative wait. -/
theorem wait_time_nonneg_aux (p : TrafficLightPredictor)
    (from_node to_node : Int) (t : ℚ)
    (hwf : ∀ k tl, p.traffic_lights.lookup k = some tl → tl.wf) :
    0 ≤ p.get_wait_time from_node to_node t := by
  unfold TrafficLightPredictor.get_wait_time
  cases hcase : p.traffic_lights.lookup (from_node, to_node) with
  | none => simp
  | some tl =>
    obtain ⟨hc, hg0, hgc, hred⟩ := hwf _ tl hcase
    simp only
    have hpos0 := pymod_nonneg (t - tl.phase_start_time) tl.cycle_time hc
    have hposlt := pymod_lt (t - tl.phase_start_time) tl.cycle_time hc
    set pos := pymod (t - tl.phase_start_time) tl.cycle_time with hposdef
    by_cases hph : tl.current_phase = "green"
    · simp only [hph, if_true]
      by_cases h1 : pos < tl.green_time
      · simp only [h1, if_true]
        by_cases h2 : tl.green_time - pos > 5
        · simp [h2]
        · simp only [h2, if_false]
          linarith
      · simp only [h1, if_false]
        linarith
    · simp only [hph, if_false]
      by_cases h1 : pos < tl.red_time
      · simp only [h1, if_true]
        linarith
      · simp [h1]

/-- A successful association-list lookup comes from a member of the
list. -/
theorem lookup_mem_aux {α β : Type} [BEq α] [LawfulBEq α]
    (l : List (α × β)) (k : α) (v : β) (h : l.lookup k = some v) :
    (k, v) ∈ l := by
  induction l with
  | nil => simp [List.lookup] at h
  | cons hd tl ih =>
    obtain ⟨k1, v1⟩ := hd
    rw [List.lookup] at h
    cases hkk : (k == k1) with
    | true =>
      simp only [hkk] at h
      cases h
      have : k = k1 := eq_of_beq hkk
      subst this
      exact List.mem_cons_self _ _
    | false =>
      simp only [hkk] at h
      exact List.mem_cons_of_mem _ (ih h)

/-- C5: for every directed edge and query time, `get_wait_time` is
nonnegative provided every registered signal is well formed (positive
cycle, green duration within the cycle, red duration derived as
cycle − green, as `add_traffic_light` guarantees), and it is exactly 0
whenever no signal is registered for the directed edge. -/
theorem wait_time_nonneg_and_default (p : TrafficLightPredictor)
    (hwf : ∀ kv ∈ p.traffic_lights, kv.2.wf)
    (from_node to_node : Int) (t : ℚ) :
    0 ≤ p.get_wait_time from_node to_node t ∧
      (p.traffic_lights.lookup (from_node, to_node) = none →
        p.get_wait_time from_node to_node t = 0) := by
  constructor
  · exact wait_time_nonneg_aux p from_node to_node t
      (fun k tl h => hwf (k, tl) (lookup_mem_aux _ _ _ h))
  · intro hnone
    unfold TrafficLightPredictor.get_wait_time
    rw [hnone]

/-- Witness for C5 at a concrete predictor: one well-formed signal on
edge (1,2); the unregistered edge (3,4) gets wait 0, and both waits are
nonnegative. -/
theorem wait_time_nonneg_and_default_witness :
    0 ≤ (TrafficLightPredictor.mk
          [((1, 2), ⟨1, 120, 60, 60, "green", 0⟩)]).get_wait_time 3 4 17 ∧
      ((TrafficLightPredictor.mk
          [((1, 2), ⟨1, 120, 60, 60, "green", 0⟩)]).traffic_lights.lookup (3, 4) = none →
        (TrafficLightPredictor.mk
          [((1, 2), ⟨1, 120, 60, 60, "green", 0⟩)]).get_wait_time 3 4 17 = 0) := by
  exact wait_time_nonneg_and_default _
    (by
      intro kv hkv
      simp only [List.mem_singleton] at hkv
      subst hkv
      constructor
      · norm_num
      constructor
      · norm_num
      constructor
      · norm_num
      · norm_num)
    3 4 17

/-- C6: for a registered signal whose current phase is green with green
duration g and positive cycle c, writing pos for the phase-elapsed
position: if pos is in the solidly-green sub-interval (more than 5
seconds of green remaining) the wait is 0; if 5 seconds or less of green
remain the wait is the full red duration; and once pos has passed g the
wait is the remaining time until cycle completion, which is positive. -/
theorem green_phase_wait_cases (p : TrafficLightPredictor)
    (from_node to_node : Int) (tl : TrafficLight) (t : ℚ)
    (hlk : p.traffic_lights.lookup (from_node, to_node) = some tl)
    (hph : tl.current_phase = "green") (hc : 0 < tl.cycle_time) :
    ((pymod (t - tl.phase_start_time) tl.cycle_time < tl.green_time ∧
        5 < tl.green_time - pymod (t - tl.phase_start_time) tl.cycle_time) →
      p.get_wait_time from_node to_node t = 0) ∧
    ((pymod (t - tl.phase_start_time) tl.cycle_time < tl.green_time ∧
        tl.green_time - pymod (t - tl.phase_start_time) tl.cycle_time ≤ 5) →
      p.get_wait_time from_node to_node t = tl.red_time) ∧
    (tl.green_time ≤ pymod (t - tl.phase_start_time) tl.cycle_time →
      p.get_wait_time from_node to_node t =
          tl.cycle_time - pymod (t - tl.phase_start_time) tl.cycle_time ∧
        0 < tl.cycle_time - pymod (t - tl.phase_start_time) tl.cycle_time) := by
  have hlt := pymod_lt (t - tl.phase_start_time) tl.cycle_time hc
  unfold TrafficLightPredictor.get_wait_time
  rw [hlk]
  simp only [hph, if_true]
  set pos := pymod (t - tl.phase_start_time) tl.cycle_time with hposdef
  refine ⟨?_, ?_, ?_⟩
  · rintro ⟨h1, h2⟩
    simp only [h1, if_true]
    simp [h2]
  · rintro ⟨h1, h2⟩
    simp only [h1, if_true]
    have : ¬ (tl.green_time - pos > 5) := not_lt.mpr h2
    simp [this]
  · intro h1
    have : ¬ (pos < tl.green_time) := not_lt.mpr h1
    simp only [this, if_false]
    exact ⟨trivial, by linarith⟩

/-- Witness for C6: a green-phase signal with cycle 120, green 60,
anchor 0; part one of the theorem gives wait 0 at time 10. -/
theorem green_phase_wait_cases_witness :
    (TrafficLightPredictor.mk
        [((1, 2), ⟨1, 120, 60, 60, "green", 0⟩)]).get_wait_time 1 2 10 = 0 := by
  have h := green_phase_wait_cases
    (TrafficLightPredictor.mk [((1, 2), ⟨1, 120, 60, 60, "green", 0⟩)])
    1 2 ⟨1, 120, 60, 60, "green", 0⟩ 10 rfl rfl (by norm_num)
  refine h.1 ⟨?_, ?_⟩
  · show pymod (10 - 0) 120 < 60
    rw [pymod]
    norm_num
  · show (5 : ℚ) < 60 - pymod (10 - 0) 120
    rw [pymod]
    norm_num

/-- C7: for a registered signal with positive cycle length, the wait-time
oracle is periodic in the query time with period the cycle length, for
every integer number of periods. -/
theorem wait_time_periodic (p : TrafficLightPredictor)
    (from_node to_node : Int) (tl : TrafficLight) (t : ℚ) (k : ℤ)
    (hlk : p.traffic_lights.lookup (from_node, to_node) = some tl)
    (hc : 0 < tl.cycle_time) :
    p.get_wait_time from_node to_node (t + (k : ℚ) * tl.cycle_time) =
      p.get_wait_time from_node to_node t := by
  unfold TrafficLightPredictor.get_wait_time
  rw [hlk]
  have harg : t + (k : ℚ) * tl.cycle_time - tl.phase_start_time =
      (t - tl.phase_start_time) + (k : ℚ) * tl.cycle_time := by ring
  simp only [harg, pymod_add_int_mul _ _ _ (ne_of_gt hc)]

/-- Witness for C7: the concrete signal of cycle 120 reports the same
wait at time 10 and at time 10 − 3·120. -/
theorem wait_time_periodic_witness :
    (TrafficLightPredictor.mk
        [((1, 2), ⟨1, 120, 60, 60, "green", 0⟩)]).get_wait_time 1 2
        (10 + (-3 : ℤ) * 120) =
      (TrafficLightPredictor.mk
        [((1, 2), ⟨1, 120, 60, 60, "green", 0⟩)]).get_wait_time 1 2 10 := by
  have h := wait_time_periodic
    (TrafficLightPredictor.mk [((1, 2), ⟨1, 120, 60, 60, "green", 0⟩)])
    1 2 ⟨1, 120, 60, 60, "green", 0⟩ 10 (-3) rfl (by norm_num)
  exact h

/-- C10: for a registered signal whose current phase is red with red
duration r, every phase-elapsed position at or past r (the green portion
of the red-anchored cycle, up to the end of the cycle) yields wait 0: the
5-second blocking surcharge applies only when the stored phase is
green. -/
theorem red_phase_green_portion_no_wait (p : TrafficLightPredictor)
    (from_node to_node : Int) (tl : TrafficLight) (t : ℚ)
    (hlk : p.traffic_lights.lookup (from_node, to_node) = some tl)
    (hph : tl.current_phase = "red")
    (hpos : tl.red_time ≤ pymod (t - tl.phase_start_time) tl.cycle_time) :
    p.get_wait_time from_node to_node t = 0 := by
  unfold TrafficLightPredictor.get_wait_time
  rw [hlk]
  have hne : ¬ (tl.current_phase = "green") := by
    rw [hph]; decide
  simp only [hne, if_false]
  have : ¬ (pymod (t - tl.phase_start_time) tl.cycle_time < tl.red_time) :=
    not_lt.mpr hpos
  simp [this]

/-- Witness for C10: a red-phase signal with cycle 120, red 60, anchor 0,
queried at time 110 (phase-elapsed 110 ≥ 60, within 5 seconds of the next
transition at 120): wait is 0. -/
theorem red_phase_green_portion_no_wait_witness :
    (TrafficLightPredictor.mk
        [((1, 2), ⟨1, 120, 60, 60, "red", 0⟩)]).get_wait_time 1 2 110 = 0 := by
  refine red_phase_green_portion_no_wait
    (TrafficLightPredictor.mk [((1, 2), ⟨1, 120, 60, 60, "red", 0⟩)])
    1 2 ⟨1, 120, 60, 60, "red", 0⟩ 110 rfl rfl ?_
  show (60 : ℚ) ≤ pymod (110 - 0) 120
  rw [pymod]
  norm_num

/-- Setting an index to the value already there changes nothing. -/
theorem set_getD_self {α : Type} (l : List α) (i : Nat) (d : α)
    (h : i < l.length) : l.set i (l.getD i d) = l := by
  induction l generalizing i with
  | nil => simp at h
  | cons a t ih =>
    cases i with
    | zero => simp
    | succ n =>
      simp only [List.getD_cons_succ, List.set_cons_succ]
      rw [ih n (by simpa using h)]

/-- Setting index i is, up to permutation, removing index i and consing
the new value. -/
theorem set_perm {α : Type} (l : List α) (i : Nat) (x : α)
    (h : i < l.length) : (l.set i x).Perm (x :: l.eraseIdx i) := by
  rw [List.set_eq_take_cons_drop x h, List.eraseIdx_eq_take_drop_succ]
  exact List.perm_middle

/-- A list is, up to permutation, the element at index i consed onto the
list with index i removed. -/
theorem getD_cons_eraseIdx_perm {α : Type} (l : List α) (i : Nat) (d : α)
    (h : i < l.length) : l.Perm (l.getD i d :: l.eraseIdx i) := by
  have := set_perm l i (l.getD i d) h
  rwa [set_getD_self l i d h] at this

/-- Overwriting index i with the element at index j and then overwriting
index j is, up to permutation, just overwriting index i. -/
theorem set_set_perm {α : Type} (l : List α) (i j : Nat) (x d : α)
    (hi : i < l.length) (hj : j < l.length) (hij : i ≠ j) :
    ((l.set i (l.getD j d)).set j x).Perm (l.set i x) := by
  induction l generalizing i j with
  | nil => simp at hi
  | cons a t ih =>
    cases i with
    | zero =>
      cases j with
      | zero => exact absurd rfl hij
      | succ m =>
        have hm : m < t.length := by simpa using hj
        simp only [List.getD_cons_succ, List.set_cons_zero, List.set_cons_succ]
        have h1 := (set_perm t m x hm).cons (t.getD m d)
        have h2 := List.Perm.swap x (t.getD m d) (t.eraseIdx m)
        have h3 := ((getD_cons_eraseIdx_perm t m d hm).cons x).symm
        exact (h1.trans h2).trans h3
    | succ n =>
      cases j with
      | zero =>
        have hn : n < t.length := by simpa using hi
        simp only [List.getD_cons_zero, List.set_cons_succ, List.set_cons_zero]
        have h1 := (set_perm t n a hn).cons x
        have h2 := List.Perm.swap a x (t.eraseIdx n)
        have h3 := ((set_perm t n x hn).cons a).symm
        exact (h1.trans h2).trans h3
      | succ m =>
        have hn : n < t.length := by simpa using hi
        have hm : m < t.length := by simpa using hj
        have hnm : n ≠ m := by omega
        simp only [List.getD_cons_succ, List.set_cons_succ]
        exact (ih n m hn hm hnm).cons a

/-- The bounded sift-down loop permutes the heap contents: its result is,
up to order, the input with `newitem` written at the hole position. -/
theorem heapSiftdownGo_perm (startpos : Nat) (fuel : Nat) :
    ∀ (heap : List PathNode) (pos : Nat) (newitem : PathNode),
      pos < heap.length →
      (heapSiftdownGo startpos fuel heap pos newitem).Perm (heap.set pos newitem) := by
  induction fuel with
  | zero =>
    intro heap pos newitem hpos
    exact List.Perm.refl _
  | succ f ih =>
    intro heap pos newitem hpos
    rw [heapSiftdownGo]
    split
    case isTrue h =>
      dsimp only
      split
      case isTrue hlt =>
        have hpp : (pos - 1) / 2 < pos := by omega
        have hplen : (pos - 1) / 2 < heap.length := lt_trans hpp hpos
        have hr := ih (heap.set pos (heap.getD ((pos - 1) / 2) default))
          ((pos - 1) / 2) newitem (by rw [List.length_set]; exact hplen)
        refine hr.trans ?_
        exact set_set_perm heap pos ((pos - 1) / 2) newitem default hpos hplen (by omega)
      case isFalse hlt => exact List.Perm.refl _
    case isFalse h => exact List.Perm.refl _

/-- Specialisation to the wrapper. -/
theorem heapSiftdownLoop_perm (startpos pos : Nat) (heap : List PathNode)
    (newitem : PathNode) (hpos : pos < heap.length) :
    (heapSiftdownLoop heap startpos pos newitem).Perm (heap.set pos newitem) :=
  heapSiftdownGo_perm startpos pos heap pos newitem hpos

/-- The bounded sift-up loop permutes the heap contents in the same
sense. -/
theorem heapSiftupGo_perm (startpos endpos : Nat) (fuel : Nat) :
    ∀ (heap : List PathNode) (pos : Nat) (newitem : PathNode),
      pos < heap.length → endpos ≤ heap.length →
      (heapSiftupGo startpos endpos fuel heap pos newitem).Perm
        (heap.set pos newitem) := by
  induction fuel with
  | zero =>
    intro heap pos newitem hpos hend
    have hr := heapSiftdownLoop_perm startpos pos (heap.set pos newitem) newitem
      (by rw [List.length_set]; exact hpos)
    refine hr.trans ?_
    rw [List.set_set]
  | succ f ih =>
    intro heap pos newitem hpos hend
    rw [heapSiftupGo]
    dsimp only
    split
    case isTrue h =>
      split
      case isTrue h2 =>
        have hrp : 2 * pos + 1 + 1 < endpos := h2.1
        have hrlen : 2 * pos + 1 + 1 < heap.length := lt_of_lt_of_le hrp hend
        have hr := ih (heap.set pos (heap.getD (2 * pos + 1 + 1) default))
          (2 * pos + 1 + 1) newitem (by rw [List.length_set]; exact hrlen)
          (by rw [List.length_set]; exact hend)
        refine hr.trans ?_
        exact set_set_perm heap pos (2 * pos + 1 + 1) newitem default hpos hrlen (by omega)
      case isFalse h2 =>
        have hclen : 2 * pos + 1 < heap.length := lt_of_lt_of_le h hend
        have hr := ih (heap.set pos (heap.getD (2 * pos + 1) default))
          (2 * pos + 1) newitem (by rw [List.length_set]; exact hclen)
          (by rw [List.length_set]; exact hend)
        refine hr.trans ?_
        exact set_set_perm heap pos (2 * pos + 1) newitem default hpos hclen (by omega)
    case isFalse h =>
      have hr := heapSiftdownLoop_perm startpos pos (heap.set pos newitem) newitem
        (by rw [List.length_set]; exact hpos)
      refine hr.trans ?_
      rw [List.set_set]

/-- Specialisation to the wrapper. -/
theorem heapSiftupLoop_perm (startpos pos endpos : Nat) (heap : List PathNode)
    (newitem : PathNode) (hpos : pos < endpos) (hend : endpos ≤ heap.length) :
    (heapSiftupLoop heap startpos pos endpos newitem).Perm (heap.set pos newitem) :=
  heapSiftupGo_perm startpos endpos endpos heap pos newitem
    (lt_of_lt_of_le hpos hend) hend

/-- The element appended at the end of a list is read back by `getD` at
the old length. -/
theorem getD_append_length {α : Type} (l : List α) (x d : α) :
    (l ++ [x]).getD l.length d = x := by
  induction l with
  | nil => rfl
  | cons a t ih => simpa using ih

/-- Pushing permutes to a plain cons: `heappush` adds its item. -/
theorem heappush_perm (heap : List PathNode) (item : PathNode) :
    (heappush heap item).Perm (item :: heap) := by
  unfold heappush
  have hlen : heap.length < (heap ++ [item]).length := by simp
  have h := heapSiftdownLoop_perm 0 heap.length (heap ++ [item]) item hlen
  have hset : (heap ++ [item]).set heap.length item = heap ++ [item] := by
    have := set_getD_self (heap ++ [item]) heap.length default hlen
    rwa [getD_append_length heap item default] at this
  rw [hset] at h
  exact h.trans (List.perm_append_singleton item heap)

/-- Popping fails exactly on the empty heap. -/
theorem heappop_eq_none_iff (heap : List PathNode) :
    heappop heap = none ↔ heap = [] := by
  unfold heappop
  split
  case isTrue h => simp [List.length_eq_zero.mp h]
  case isFalse h =>
    constructor
    · intro hc
      dsimp only at hc
      split at hc <;> simp at hc
    · intro hc
      subst hc
      simp at h

/-- An in-bounds `getD` is a `get`. -/
theorem getD_eq_get {α : Type} (l : List α) (i : Nat) (d : α)
    (h : i < l.length) : l.getD i d = l.get ⟨i, h⟩ := by
  rw [List.getD_eq_get?, List.get?_eq_get h]
  rfl

/-- A nonempty list is its `dropLast` followed by its last element, read
with `getD`. -/
theorem dropLast_append_getD {α : Type} (l : List α) (d : α) (h : l ≠ []) :
    l.dropLast ++ [l.getD (l.length - 1) d] = l := by
  have hpos : 0 < l.length := List.length_pos.mpr h
  have hlen : l.length - 1 < l.length := by omega
  rw [getD_eq_get l _ _ hlen]
  rw [← List.getLast_eq_get l h]
  exact List.dropLast_append_getLast h

/-- A successful `heappop` returns an element and a heap that together
permute to the input heap. -/
theorem heappop_perm (heap : List PathNode) (x : PathNode)
    (out : List PathNode) (h : heappop heap = some (x, out)) :
    heap.Perm (x :: out) := by
  unfold heappop at h
  split at h
  case isTrue h0 => simp at h
  case isFalse h0 =>
    have hne : heap ≠ [] := by
      intro hc; subst hc; simp at h0
    dsimp only at h
    split at h
    case isTrue h1 =>
      have hlen1 : heap.length = 1 := by
        have := List.length_dropLast heap
        omega
      obtain ⟨a, ha⟩ := List.length_eq_one.mp hlen1
      subst ha
      simp only [Option.some.injEq, Prod.mk.injEq] at h
      obtain ⟨hx, hout⟩ := h
      subst hx
      subst hout
      simp
    case isFalse h1 =>
      simp only [Option.some.injEq, Prod.mk.injEq] at h
      obtain ⟨hx, hout⟩ := h
      have hdlen := List.length_dropLast heap
      have hrlen : 0 < heap.dropLast.length := by omega
      have hsift := heapSiftupLoop_perm 0 0 heap.dropLast.length
        (heap.dropLast.set 0 (heap.getD (heap.length - 1) default))
        (heap.getD (heap.length - 1) default) hrlen
        (by rw [List.length_set])
      rw [List.set_set] at hsift
      rw [hout] at hsift
      have hstep2 := set_perm heap.dropLast 0
        (heap.getD (heap.length - 1) default) hrlen
      have hstep3 := getD_cons_eraseIdx_perm heap.dropLast 0 default hrlen
      rw [hx] at hstep3
      have hchain : heap.Perm
          (heap.getD (heap.length - 1) default :: heap.dropLast) := by
        conv_lhs => rw [← dropLast_append_getD heap default hne]
        exact List.perm_append_singleton _ _
      refine hchain.trans ?_
      refine (hstep3.cons _).trans ?_
      refine (List.Perm.swap x _ _).trans ?_
      refine List.Perm.cons x ?_
      exact hstep2.symm.trans hsift.symm

/-- Shared helper: the start == goal shortcut returns ([n], 0.0, {})
for every node id n and time t, before any other check runs. -/
theorem find_path_self_aux (pf : AStarPathfinder) (n : Int) (t : ℚ) :
    pf.find_path n n t = ([n], ((0 : ℚ) : WithTop ℚ), []) := by
  unfold AStarPathfinder.find_path AStarPathfinder.find_path_run
  simp

/-- C9: for every node id (valid or not) and every start time, the
start == goal shortcut fires before the endpoint existence check, giving
the success-shaped result ([n], 0.0, {}) with an empty stats
dictionary. -/
theorem find_path_self_shortcut (pf : AStarPathfinder) (n : Int) (t : ℚ) :
    pf.find_path n n t = ([n], ((0 : ℚ) : WithTop ℚ), []) :=
  find_path_self_aux pf n t

/-- Counterexample to C2 as stated: for the valid node 1 of the concrete
network, `find_path 1 1 0` returns an *empty* stats dictionary, so its
nodes-explored count is not the entry 0 — the claim that all three counts
are present with value zero fails. -/
theorem trivial_path_zero_stats_counterexample :
    exPf.road_network.has_node 1 = true ∧
      (exPf.find_path 1 1 0).2.2 = [] ∧
      ¬ ((exPf.find_path 1 1 0).2.2.lookup "nodes_explored" = some 0 ∧
        (exPf.find_path 1 1 0).2.2.lookup "traffic_lights_encountered" = some 0 ∧
        (exPf.find_path 1 1 0).2.2.lookup "total_wait_time" = some 0) := by
  refine ⟨rfl, ?_, ?_⟩
  · rw [find_path_self_aux]
  · intro hc
    rw [find_path_self_aux] at hc
    exact Option.noConfusion hc.1

/-- C2 as amended: for every node n that exists in the graph and every
start time t, `find_path(n, n, t)` returns the one-node path [n] and
total cost 0, with an *empty* stats dictionary (the counts are absent,
not present with value zero). -/
theorem trivial_path_result (pf : AStarPathfinder) (n : Int) (t : ℚ)
    (hv : pf.road_network.has_node n = true) :
    pf.find_path n n t = ([n], ((0 : ℚ) : WithTop ℚ), []) :=
  find_path_self_aux pf n t

/-- Witness for the amended C2 at the valid node 1. -/
theorem trivial_path_result_witness :
    exPf.road_network.has_node 1 = true ∧
      exPf.find_path 1 1 3 = ([1], ((0 : ℚ) : WithTop ℚ), []) :=
  ⟨rfl, trivial_path_result exPf 1 3 rfl⟩

/-- Counterexample to C3 as stated: node 7 is absent from the concrete
network, yet `find_path 7 7 0` (start absent, and equal to goal) returns
the non-empty path [7] with cost 0 rather than a FAILED report. -/
theorem invalid_endpoint_counterexample :
    exPf.road_network.has_node 7 = false ∧
      (exPf.find_path 7 7 0).1 ≠ [] ∧
      (exPf.find_path 7 7 0).2.1 ≠ ⊤ := by
  refine ⟨rfl, ?_, ?_⟩
  · rw [find_path_self_aux]
    simp
  · rw [find_path_self_aux]
    simp

/-- C3 as amended: for every call with start ≠ goal in which start or
goal is absent from the graph provider, the result is the FAILED report:
empty path, cost +infinity (and the empty stats dictionary); no exception
is modelled because the source raises none on this path. -/
theorem invalid_endpoints_failed (pf : AStarPathfinder) (s g : Int) (t : ℚ)
    (hne : s ≠ g)
    (habs : pf.road_network.has_node s = false ∨
      pf.road_network.has_node g = false) :
    pf.find_path s g t = ([], ⊤, []) := by
  unfold AStarPathfinder.find_path AStarPathfinder.find_path_run
  rw [if_neg hne, if_pos]
  rcases habs with h | h
  · left
    simp [h]
  · right
    simp [h]

/-- Witness for the amended C3: start 7 is absent and distinct from goal
2, and the result is the FAILED report. -/
theorem invalid_endpoints_failed_witness :
    exPf.road_network.has_node 7 = false ∧
      exPf.find_path 7 2 0 = ([], ⊤, []) :=
  ⟨rfl, invalid_endpoints_failed exPf 7 2 0 (by decide) (Or.inl rfl)⟩

/-- Considering a neighbor leaves the closed set unchanged. -/
theorem considerNeighbor_closed_set (pf : AStarPathfinder) (goal_id : Int)
    (current : PathNode) (neighbor_id : Int) (st : SearchState) :
    (considerNeighbor pf goal_id current neighbor_id st).closed_set =
      st.closed_set := by
  unfold considerNeighbor
  dsimp only
  split <;> split <;> rfl

/-- Considering a neighbor leaves the explored-nodes counter unchanged. -/
theorem considerNeighbor_nodes_explored (pf : AStarPathfinder) (goal_id : Int)
    (current : PathNode) (neighbor_id : Int) (st : SearchState) :
    (considerNeighbor pf goal_id current neighbor_id st).nodes_explored =
      st.nodes_explored := by
  unfold considerNeighbor
  dsimp only
  split <;> split <;> rfl

/-- Considering a neighbor appends exactly one query-trace entry, stamped
with the pre-step clock. -/
theorem considerNeighbor_queries (pf : AStarPathfinder) (goal_id : Int)
    (current : PathNode) (neighbor_id : Int) (st : SearchState) :
    (considerNeighbor pf goal_id current neighbor_id st).queries =
      st.queries ++ [(current.node_id, neighbor_id, st.current_time)] := by
  unfold considerNeighbor
  dsimp only
  split <;> split <;> rfl

/-- Considering a neighbor advances the clock by edge cost over assumed
speed. -/
theorem considerNeighbor_current_time (pf : AStarPathfinder) (goal_id : Int)
    (current : PathNode) (neighbor_id : Int) (st : SearchState) :
    (considerNeighbor pf goal_id current neighbor_id st).current_time =
      st.current_time +
        edgeCostQ pf current.node_id neighbor_id st.current_time / (1389 / 100) := by
  unfold considerNeighbor
  dsimp only
  split <;> split <;> rfl

/-- Appending one considered edge to a clock-disciplined trace keeps it
disciplined exactly when the new entry is stamped with the accumulated
clock. -/
theorem clockChain_append (pf : AStarPathfinder) (u v : Int) (q : ℚ)
    (qs : List (Int × Int × ℚ)) :
    ∀ t : ℚ, ClockChain pf t qs → q = clockAfter pf t qs →
      ClockChain pf t (qs ++ [(u, v, q)]) := by
  induction qs with
  | nil =>
    intro t _ hq
    exact ⟨hq, trivial⟩
  | cons hd rest ih =>
    intro t hchain hq
    obtain ⟨u0, v0, q0⟩ := hd
    obtain ⟨hq0, hrest⟩ := hchain
    exact ⟨hq0, ih _ hrest hq⟩

/-- Evaluating `clockAfter` over an extended trace. -/
theorem clockAfter_append (pf : AStarPathfinder) (u v : Int) (q : ℚ)
    (qs : List (Int × Int × ℚ)) :
    ∀ t : ℚ, clockAfter pf t (qs ++ [(u, v, q)]) =
      clockAfter pf t qs + edgeCostQ pf u v (clockAfter pf t qs) / (1389 / 100) := by
  induction qs with
  | nil =>
    intro t
    rfl
  | cons hd rest ih =>
    intro t
    obtain ⟨u0, v0, q0⟩ := hd
    exact ih _

/-- Clock-discipline invariant: it is preserved by the whole inner
neighbor loop. -/
theorem expandNeighbors_clock (pf : AStarPathfinder) (goal_id : Int)
    (current : PathNode) (t0 : ℚ) (nbrs : List Int) :
    ∀ st : SearchState, ClockChain pf t0 st.queries →
      st.current_time = clockAfter pf t0 st.queries →
      ClockChain pf t0 (expandNeighbors pf goal_id current nbrs st).queries ∧
        (expandNeighbors pf goal_id current nbrs st).current_time =
          clockAfter pf t0 (expandNeighbors pf goal_id current nbrs st).queries := by
  induction nbrs with
  | nil =>
    intro st hchain htime
    rw [expandNeighbors]
    exact ⟨hchain, htime⟩
  | cons n rest ih =>
    intro st hchain htime
    rw [expandNeighbors]
    split
    · exact ih st hchain htime
    · dsimp only
      split
      · exact ih st hchain htime
      · refine ih _ ?_ ?_
        · rw [considerNeighbor_queries]
          exact clockChain_append pf _ _ _ _ t0 hchain htime
        · rw [considerNeighbor_queries, considerNeighbor_current_time]
          rw [clockAfter_append]
          rw [htime]

/-- Clock-discipline invariant through the outer search loop. -/
theorem searchLoop_clock (pf : AStarPathfinder) (goal_id : Int) (t0 : ℚ) :
    ∀ (fuel : Nat) (st : SearchState), ClockChain pf t0 st.queries →
      st.current_time = clockAfter pf t0 st.queries →
      ClockChain pf t0 (searchLoop pf goal_id fuel st).2.queries ∧
        (searchLoop pf goal_id fuel st).2.current_time =
          clockAfter pf t0 (searchLoop pf goal_id fuel st).2.queries := by
  intro fuel
  induction fuel with
  | zero =>
    intro st hchain htime
    exact ⟨hchain, htime⟩
  | succ f ih =>
    intro st hchain htime
    cases hpop : heappop st.open_list with
    | none =>
      simp only [searchLoop, hpop]
      exact ⟨hchain, htime⟩
    | some pr =>
      obtain ⟨current, rest⟩ := pr
      simp only [searchLoop, hpop]
      by_cases hg : current.node_id = goal_id
      · rw [if_pos hg]
        exact ⟨hchain, htime⟩
      · rw [if_neg hg]
        by_cases hm : current.node_id ∈ st.closed_set
        · rw [if_pos hm]
          exact ih _ hchain htime
        · rw [if_neg hm]
          have hexp := expandNeighbors_clock pf goal_id current t0
            (pf.road_network.get_neighbors current.node_id)
            { st with
              open_list := rest,
              closed_set := current.node_id :: st.closed_set,
              nodes_explored := st.nodes_explored + 1 }
            hchain htime
          exact ih _ hexp.1 hexp.2

/-- C8: during one `find_path` run the single simulated clock starts at
`start_time` and is advanced by edge cost over the assumed speed
(13.89 m/s) once for each edge considered during expansion, in expansion
order, and the wait-time query for each considered edge is made at the
clock value accumulated so far (not at any per-path arrival time): the
run's query trace is clock-disciplined from `start_time`, and the final
clock is the accumulated value. -/
theorem find_path_clock_discipline (pf : AStarPathfinder)
    (start_id goal_id : Int) (start_time : ℚ) :
    ClockChain pf start_time
        (pf.find_path_run start_id goal_id start_time).2.queries ∧
      (pf.find_path_run start_id goal_id start_time).2.current_time =
        clockAfter pf start_time
          (pf.find_path_run start_id goal_id start_time).2.queries := by
  unfold AStarPathfinder.find_path_run
  split
  · exact ⟨trivial, rfl⟩
  · split
    · exact ⟨trivial, rfl⟩
    · exact searchLoop_clock pf goal_id start_time (searchFuel pf)
        (initState pf start_id goal_id start_time) trivial rfl

/-- The start node chains to itself within any bound. -/
theorem ChainLe_start (p : Int → Option Int) (s : Int) :
    ∀ n, ChainLe p s n s := by
  intro n
  cases n with
  | zero => rfl
  | succ m => exact Or.inl rfl

/-- Chain bounds are monotone. -/
theorem ChainLe_mono (p : Int → Option Int) (s : Int) :
    ∀ n m, n ≤ m → ∀ v, ChainLe p s n v → ChainLe p s m v := by
  intro n
  induction n with
  | zero =>
    intro m _ v hv
    have hv2 : v = s := hv
    subst v
    exact ChainLe_start p s m
  | succ k ih =>
    intro m hm v hv
    obtain ⟨m2, rfl⟩ : ∃ m2, m = m2 + 1 := ⟨m - 1, by omega⟩
    rcases hv with hv | ⟨u, hu, hc⟩
    · subst v
      exact ChainLe_start p s (m2 + 1)
    · exact Or.inr ⟨u, hu, ih m2 (by omega) u hc⟩

/-- Chains running through the closed set survive a parents update at a
node outside the closed set. -/
theorem ChainLe_congr (pold pnew : Int → Option Int) (closed : List Int) (s : Int)
    (hsame : ∀ w ∈ closed, pnew w = pold w)
    (hclosed : ∀ w u, pold w = some u → u ∈ closed) :
    ∀ n v, v ∈ closed → ChainLe pold s n v → ChainLe pnew s n v := by
  intro n
  induction n with
  | zero => intro v _ hv; exact hv
  | succ k ih =>
    intro v hvmem hv
    rcases hv with hv | ⟨u, hu, hc⟩
    · exact Or.inl hv
    · refine Or.inr ⟨u, ?_, ih u (hclosed v u hu) hc⟩
      rw [hsame v hvmem]
      exact hu

/-- A finite edge cost comes from a present static distance and equals
distance plus speed-scaled wait time. -/
theorem edge_cost_finite_spec (pf : AStarPathfinder) (u v : Int) (t : ℚ)
    (h : pf.get_edge_cost u v t ≠ ⊤) :
    ∃ d, pf.road_network.get_edge_distance u v = some d ∧
      edgeCostQ pf u v t =
        d + pf.traffic_predictor.get_wait_time u v t * (1389 / 100) := by
  unfold edgeCostQ AStarPathfinder.get_edge_cost
  unfold AStarPathfinder.get_edge_cost at h
  cases hd : pf.road_network.get_edge_distance u v with
  | none => rw [hd] at h; exact absurd rfl h
  | some d =>
    rw [hd] at h
    simp only [hd]
    exact ⟨d, rfl, rfl⟩

/-- The improve flag computed by `considerNeighbor` is true exactly when
`improves` holds. -/
theorem improve_flag_eq_true (pf : AStarPathfinder) (current : PathNode)
    (neighbor_id : Int) (st : SearchState)
    (himp : improves pf current neighbor_id st) :
    (match st.g_costs neighbor_id with
      | none => true
      | some g =>
        decide ((st.g_costs current.node_id).getD 0 +
          WithTop.untop' 0
            (pf.get_edge_cost current.node_id neighbor_id st.current_time) < g)) =
      true := by
  rcases himp with h | ⟨g0, hg, hlt⟩
  · rw [h]
  · rw [hg]
    unfold tentativeG edgeCostQ at hlt
    exact decide_eq_true hlt

/-- The improve flag is false exactly when `improves` fails. -/
theorem improve_flag_eq_false (pf : AStarPathfinder) (current : PathNode)
    (neighbor_id : Int) (st : SearchState)
    (himp : ¬ improves pf current neighbor_id st) :
    (match st.g_costs neighbor_id with
      | none => true
      | some g =>
        decide ((st.g_costs current.node_id).getD 0 +
          WithTop.untop' 0
            (pf.get_edge_cost current.node_id neighbor_id st.current_time) < g)) =
      false := by
  cases hg : st.g_costs neighbor_id with
  | none => exact absurd (Or.inl hg) himp
  | some g0 =>
    have hnlt : ¬ tentativeG pf current neighbor_id st < g0 := by
      intro hlt
      exact himp (Or.inr ⟨g0, hg, hlt⟩)
    unfold tentativeG edgeCostQ at hnlt
    exact decide_eq_false hnlt

/-- On improvement, `considerNeighbor` records the tentative cost, the
parent pointer, and pushes a fresh frontier entry. -/
theorem considerNeighbor_improve_fields (pf : AStarPathfinder) (goal_id : Int)
    (current : PathNode) (neighbor_id : Int) (st : SearchState)
    (himp : improves pf current neighbor_id st) :
    (considerNeighbor pf goal_id current neighbor_id st).g_costs =
      (fun m => if m = neighbor_id then
        some (tentativeG pf current neighbor_id st) else st.g_costs m) ∧
    (considerNeighbor pf goal_id current neighbor_id st).parents =
      (fun m => if m = neighbor_id then some current.node_id else st.parents m) ∧
    (considerNeighbor pf goal_id current neighbor_id st).open_list =
      heappush st.open_list
        { node_id := neighbor_id
          g_cost := tentativeG pf current neighbor_id st
          h_cost := pf.heuristic neighbor_id goal_id
          parent := some current.node_id } := by
  have hflag := improve_flag_eq_true pf current neighbor_id st himp
  unfold considerNeighbor
  dsimp only
  rw [hflag]
  unfold tentativeG edgeCostQ
  refine ⟨?_, ?_, ?_⟩ <;>
    · simp only [if_true]
      split <;> rfl

/-- Without improvement, `considerNeighbor` leaves the dictionaries and
the frontier untouched. -/
theorem considerNeighbor_stable_fields (pf : AStarPathfinder) (goal_id : Int)
    (current : PathNode) (neighbor_id : Int) (st : SearchState)
    (himp : ¬ improves pf current neighbor_id st) :
    (considerNeighbor pf goal_id current neighbor_id st).g_costs = st.g_costs ∧
    (considerNeighbor pf goal_id current neighbor_id st).parents = st.parents ∧
    (considerNeighbor pf goal_id current neighbor_id st).open_list =
      st.open_list := by
  have hflag := improve_flag_eq_false pf current neighbor_id st himp
  unfold considerNeighbor
  dsimp only
  rw [hflag]
  refine ⟨?_, ?_, ?_⟩ <;>
    · simp only [Bool.false_eq_true, if_false]
      split <;> rfl

/-- The edge cost is at least the static distance: the wait surcharge is
nonnegative for well-formed signals. -/
theorem edgeCostQ_ge_distance (pf : AStarPathfinder) (u v : Int) (t : ℚ)
    (hwf : ∀ kv ∈ pf.traffic_predictor.traffic_lights, kv.2.wf)
    (d : ℚ) (hd : pf.road_network.get_edge_distance u v = some d)
    (hfin : pf.get_edge_cost u v t ≠ ⊤) :
    d ≤ edgeCostQ pf u v t := by
  obtain ⟨d2, hd2, hec⟩ := edge_cost_finite_spec pf u v t hfin
  rw [hd] at hd2
  cases hd2
  rw [hec]
  have hw := wait_time_nonneg_aux pf.traffic_predictor u v t
    (fun k tl h => hwf (k, tl) (lookup_mem_aux _ _ _ h))
  nlinarith

/-- One considered neighbor preserves the search invariant. -/
theorem considerNeighbor_inv (pf : AStarPathfinder) (start_id goal_id : Int)
    (current : PathNode) (neighbor_id : Int) (st : SearchState)
    (hwf : ∀ kv ∈ pf.traffic_predictor.traffic_lights, kv.2.wf)
    (hinv : SearchInv pf start_id st)
    (hcur : current.node_id ∈ st.closed_set)
    (hnb : neighbor_id ∉ st.closed_set)
    (hfin : pf.get_edge_cost current.node_id neighbor_id st.current_time ≠ ⊤) :
    SearchInv pf start_id (considerNeighbor pf goal_id current neighbor_id st) := by
  have hcl := considerNeighbor_closed_set pf goal_id current neighbor_id st
  have hnstart : neighbor_id ≠ start_id := by
    intro hc; subst hc; exact hnb hinv.startClosed
  by_cases himp : improves pf current neighbor_id st
  · obtain ⟨hgf, hpf, hof⟩ :=
      considerNeighbor_improve_fields pf goal_id current neighbor_id st himp
    obtain ⟨gc, hgc⟩ := hinv.closedG current.node_id hcur
    have hcurne : current.node_id ≠ neighbor_id := by
      intro hc; rw [hc] at hcur; exact hnb hcur
    have htc : tentativeG pf current neighbor_id st =
        gc + edgeCostQ pf current.node_id neighbor_id st.current_time := by
      unfold tentativeG
      rw [hgc]
      rfl
    obtain ⟨d, hd, hecd⟩ := edge_cost_finite_spec pf current.node_id neighbor_id
      st.current_time hfin
    have hdle : d ≤ edgeCostQ pf current.node_id neighbor_id st.current_time :=
      edgeCostQ_ge_distance pf current.node_id neighbor_id st.current_time hwf d hd hfin
    refine ⟨?_, ?_, ?_, ?_, ?_, ?_, ?_, ?_⟩
    · rw [hgf]
      simp only [if_neg (Ne.symm hnstart)]
      exact hinv.gstart
    · rw [hpf]
      simp only [if_neg (Ne.symm hnstart)]
      exact hinv.pstart
    · rw [hcl]; exact hinv.startClosed
    · rw [hof, hgf]
      intro e he
      have hmem := (heappush_perm st.open_list _).mem_iff.mp he
      rcases List.mem_cons.mp hmem with heq | hold
      · subst heq
        exact ⟨tentativeG pf current neighbor_id st, by simp, le_refl _⟩
      · obtain ⟨gv, hgv, hle⟩ := hinv.heapG e hold
        by_cases hen : e.node_id = neighbor_id
        · refine ⟨tentativeG pf current neighbor_id st, by simp [hen], ?_⟩
          rcases himp with hnone | ⟨g0, hg0, hlt⟩
          · rw [hen] at hgv; rw [hgv] at hnone; cases hnone
          · rw [hen] at hgv; rw [hgv] at hg0
            cases hg0
            exact le_trans (le_of_lt hlt) hle
        · exact ⟨gv, by simp [hen]; exact hgv, hle⟩
    · rw [hcl, hgf]
      intro v hv
      have hvne : v ≠ neighbor_id := by
        intro hc; subst hc; exact hnb hv
      obtain ⟨gv, hgv⟩ := hinv.closedG v hv
      exact ⟨gv, by simp only [if_neg hvne]; exact hgv⟩
    · rw [hgf, hpf]
      intro v gv hgv hvs
      by_cases hvn : v = neighbor_id
      · exact ⟨current.node_id, by simp only [if_pos hvn]⟩
      · simp only [if_neg hvn] at hgv
        obtain ⟨u, hu⟩ := hinv.domParents v gv hgv hvs
        exact ⟨u, by simp only [if_neg hvn]; exact hu⟩
    · rw [hgf, hpf, hcl]
      intro v u hu
      by_cases hvn : v = neighbor_id
      · subst hvn
        simp only [if_pos rfl] at hu
        cases hu
        refine ⟨hcur, tentativeG pf current v st, gc, d, ?_, ?_, hd, ?_⟩
        · simp
        · simp only [if_neg hcurne]
          exact hgc
        · rw [htc]
          exact add_le_add_left hdle gc
      · simp only [if_neg hvn] at hu
        obtain ⟨humem, gv, gu, d2, hgv, hgu, hd2, hle2⟩ := hinv.parentInv v u hu
        have hune : u ≠ neighbor_id := by
          intro hc; subst hc; exact hnb humem
        refine ⟨humem, gv, gu, d2, ?_, ?_, hd2, hle2⟩
        · simp only [if_neg hvn]; exact hgv
        · simp only [if_neg hune]; exact hgu
    · rw [hcl, hpf]
      intro v hv
      have hchain := hinv.chainBound v hv
      refine ChainLe_congr st.parents _ st.closed_set start_id ?_ ?_ _ v hv hchain
      · intro w hw
        have hwne : w ≠ neighbor_id := by
          intro hc; subst hc; exact hnb hw
        simp only [if_neg hwne]
      · intro w u hwu
        exact (hinv.parentInv w u hwu).1
  · obtain ⟨hgf, hpf, hof⟩ :=
      considerNeighbor_stable_fields pf goal_id current neighbor_id st himp
    exact ⟨by rw [hgf]; exact hinv.gstart,
      by rw [hpf]; exact hinv.pstart,
      by rw [hcl]; exact hinv.startClosed,
      by rw [hof, hgf]; exact hinv.heapG,
      by rw [hcl, hgf]; exact hinv.closedG,
      by rw [hgf, hpf]; exact hinv.domParents,
      by rw [hgf, hpf, hcl]; exact hinv.parentInv,
      by rw [hcl, hpf]; exact hinv.chainBound⟩

/-- The whole neighbor loop preserves the search invariant. -/
theorem expandNeighbors_inv (pf : AStarPathfinder) (start_id goal_id : Int)
    (current : PathNode)
    (hwf : ∀ kv ∈ pf.traffic_predictor.traffic_lights, kv.2.wf) :
    ∀ (nbrs : List Int) (st : SearchState), SearchInv pf start_id st →
      current.node_id ∈ st.closed_set →
      SearchInv pf start_id (expandNeighbors pf goal_id current nbrs st) := by
  intro nbrs
  induction nbrs with
  | nil =>
    intro st hinv _
    rw [expandNeighbors]
    exact hinv
  | cons n rest ih =>
    intro st hinv hcur
    rw [expandNeighbors]
    split
    · exact ih st hinv hcur
    · dsimp only
      split
      · exact ih st hinv hcur
      · refine ih _ ?_ ?_
        · refine considerNeighbor_inv pf start_id goal_id current n st hwf hinv hcur ?_ ?_
          · assumption
          · assumption
        · rw [considerNeighbor_closed_set]
          exact hcur

/-- Telescoping bound for the reconstruction loop: when the parent chain
from v reaches the start within n steps, the reverse-order static sum of
the reconstructed node list is bounded by the best known cost of v, for
any fuel beyond n. -/
theorem reconstruct_sum (net : RoadNetwork) (parents : Int → Option Int)
    (g_costs : Int → Option ℚ) (start : Int)
    (hg0 : g_costs start = some 0)
    (hps : parents start = none)
    (hpar : ∀ v u, parents v = some u →
      ∃ gv gu d, g_costs v = some gv ∧ g_costs u = some gu ∧
        net.get_edge_distance u v = some d ∧ gu + d ≤ gv) :
    ∀ n v gv, ChainLe parents start n v → g_costs v = some gv →
      ∀ fuel, n < fuel → revSum net (reconstructPath parents fuel v) ≤ gv := by
  intro n
  induction n with
  | zero =>
    intro v gv hchain hgv fuel hfuel
    have hv : v = start := hchain
    subst hv
    rw [hg0] at hgv
    cases hgv
    obtain ⟨f, rfl⟩ : ∃ f, fuel = f + 1 := ⟨fuel - 1, by omega⟩
    rw [reconstructPath, hps]
    exact le_refl 0
  | succ k ih =>
    intro v gv hchain hgv fuel hfuel
    rcases hchain with hv | ⟨u, hu, hc⟩
    · subst hv
      rw [hg0] at hgv
      cases hgv
      obtain ⟨f, rfl⟩ : ∃ f, fuel = f + 1 := ⟨fuel - 1, by omega⟩
      rw [reconstructPath, hps]
      exact le_refl 0
    · obtain ⟨gv2, gu, d, hgv2, hgu, hd, hle⟩ := hpar v u hu
      rw [hgv] at hgv2
      cases hgv2
      obtain ⟨f, rfl⟩ : ∃ f, fuel = f + 1 := ⟨fuel - 1, by omega⟩
      have hkf : k < f := by omega
      obtain ⟨f2, rfl⟩ : ∃ f2, f = f2 + 1 := ⟨f - 1, by omega⟩
      rw [reconstructPath]
      simp only [hu]
      rw [reconstructPath]
      rw [revSum, hd]
      simp only [Option.getD_some]
      have hrec := ih u gu hc hgu (f2 + 1) hkf
      rw [reconstructPath] at hrec
      linarith

/-- Appending one more hop at the end of a path adds exactly that hop's
distance to the forward static sum. -/
theorem pathStaticSum_concat (net : RoadNetwork) :
    ∀ (xs : List Int) (b a : Int),
      pathStaticSum net (xs ++ [b, a]) =
        pathStaticSum net (xs ++ [b]) + ((net.get_edge_distance b a).getD 0) := by
  intro xs
  induction xs with
  | nil =>
    intro b a
    show ((net.get_edge_distance b a).getD 0) + pathStaticSum net [a] =
      pathStaticSum net [b] + ((net.get_edge_distance b a).getD 0)
    show ((net.get_edge_distance b a).getD 0) + 0 = 0 + ((net.get_edge_distance b a).getD 0)
    ring
  | cons x xs ih =>
    intro b a
    cases xs with
    | nil =>
      show ((net.get_edge_distance x b).getD 0) + pathStaticSum net [b, a] =
        (((net.get_edge_distance x b).getD 0) + pathStaticSum net [b]) +
          ((net.get_edge_distance b a).getD 0)
      show ((net.get_edge_distance x b).getD 0) +
          (((net.get_edge_distance b a).getD 0) + pathStaticSum net [a]) =
        (((net.get_edge_distance x b).getD 0) + pathStaticSum net [b]) +
          ((net.get_edge_distance b a).getD 0)
      show ((net.get_edge_distance x b).getD 0) +
          (((net.get_edge_distance b a).getD 0) + 0) =
        (((net.get_edge_distance x b).getD 0) + 0) +
          ((net.get_edge_distance b a).getD 0)
      ring
    | cons y ys =>
      have h3 := ih b a
      simp only [List.cons_append] at h3 ⊢
      show ((net.get_edge_distance x y).getD 0) +
          pathStaticSum net (y :: (ys ++ [b, a])) =
        ((net.get_edge_distance x y).getD 0) +
          pathStaticSum net (y :: (ys ++ [b])) +
          ((net.get_edge_distance b a).getD 0)
      rw [h3]
      ring

/-- The forward static sum of a reversed list is the reverse-order static
sum of the list. -/
theorem pathStaticSum_reverse (net : RoadNetwork) :
    ∀ l : List Int, pathStaticSum net l.reverse = revSum net l := by
  intro l
  induction l with
  | nil => rfl
  | cons a rest ih =>
    cases rest with
    | nil => rfl
    | cons b t =>
      have hrev : (a :: b :: t).reverse = (b :: t).reverse ++ [a] := by
        simp
      have hrev2 : (b :: t).reverse = t.reverse ++ [b] := by
        simp
      rw [hrev, hrev2, List.append_assoc]
      show pathStaticSum net (t.reverse ++ [b, a]) = revSum net (a :: b :: t)
      rw [pathStaticSum_concat net t.reverse b a, ← hrev2, ih]
      show revSum net (b :: t) + ((net.get_edge_distance b a).getD 0) =
        ((net.get_edge_distance b a).getD 0) + revSum net (b :: t)
      ring

/-- Cost soundness of the search loop: under the invariant, any
non-empty returned path has total cost at least its static-distance
sum. -/
theorem searchLoop_cost_bound (pf : AStarPathfinder) (start_id goal_id : Int)
    (hwf : ∀ kv ∈ pf.traffic_predictor.traffic_lights, kv.2.wf) :
    ∀ (fuel : Nat) (st : SearchState), SearchInv pf start_id st →
      ∀ path cost stats,
        (searchLoop pf goal_id fuel st).1 = (path, cost, stats) →
        path ≠ [] →
        ((pathStaticSum pf.road_network path : ℚ) : WithTop ℚ) ≤ cost := by
  intro fuel
  induction fuel with
  | zero =>
    intro st hinv path cost stats hres hne
    simp only [searchLoop, Prod.mk.injEq] at hres
    exact absurd hres.1.symm hne
  | succ f ih =>
    intro st hinv path cost stats hres hne
    cases hpop : heappop st.open_list with
    | none =>
      simp only [searchLoop, hpop, Prod.mk.injEq] at hres
      exact absurd hres.1.symm hne
    | some pr =>
      obtain ⟨current, rest⟩ := pr
      have hperm := heappop_perm st.open_list current rest hpop
      have hcurmem : current ∈ st.open_list :=
        hperm.mem_iff.mpr (List.mem_cons_self _ _)
      simp only [searchLoop, hpop] at hres
      by_cases hg : current.node_id = goal_id
      · rw [if_pos hg] at hres
        simp only [Prod.mk.injEq] at hres
        obtain ⟨hpath, hcost, _⟩ := hres
        obtain ⟨gv, hgv, hle⟩ := hinv.heapG current hcurmem
        rw [hg] at hgv
        have hpar2 : ∀ v u, st.parents v = some u →
            ∃ gvx gux d, st.g_costs v = some gvx ∧ st.g_costs u = some gux ∧
              pf.road_network.get_edge_distance u v = some d ∧ gux + d ≤ gvx :=
          fun v u hu => (hinv.parentInv v u hu).2
        have hchain : ChainLe st.parents start_id st.closed_set.length goal_id := by
          by_cases hgs : goal_id = start_id
          · rw [hgs]
            exact ChainLe_start _ _ _
          · obtain ⟨u, hu⟩ := hinv.domParents goal_id gv hgv hgs
            have humem := (hinv.parentInv goal_id u hu).1
            have hchu := hinv.chainBound u humem
            have hlenpos : 0 < st.closed_set.length :=
              List.length_pos.mpr (List.ne_nil_of_mem humem)
            obtain ⟨k, hk⟩ : ∃ k, st.closed_set.length = k + 1 :=
              ⟨st.closed_set.length - 1, by omega⟩
            rw [hk]
            refine Or.inr ⟨u, hu, ?_⟩
            rw [hk] at hchu
            simpa using hchu
        have hsum := reconstruct_sum pf.road_network st.parents st.g_costs start_id
          hinv.gstart hinv.pstart hpar2 st.closed_set.length goal_id gv hchain hgv
          (st.closed_set.length + 1) (by omega)
        rw [← hpath, ← hcost]
        rw [pathStaticSum_reverse]
        have hq : pathStaticSum pf.road_network
            ((reconstructPath st.parents (st.closed_set.length + 1) goal_id).reverse) =
            revSum pf.road_network
              (reconstructPath st.parents (st.closed_set.length + 1) goal_id) :=
          pathStaticSum_reverse pf.road_network _
        have hfinal : revSum pf.road_network
            (reconstructPath st.parents (st.closed_set.length + 1) goal_id) ≤
            current.g_cost := le_trans hsum hle
        exact_mod_cast hfinal
      · rw [if_neg hg] at hres
        by_cases hm : current.node_id ∈ st.closed_set
        · rw [if_pos hm] at hres
          refine ih _ ?_ path cost stats hres hne
          exact ⟨hinv.gstart, hinv.pstart, hinv.startClosed,
            fun e he => hinv.heapG e (hperm.mem_iff.mpr (List.mem_cons_of_mem _ he)),
            hinv.closedG, hinv.domParents, hinv.parentInv, hinv.chainBound⟩
        · rw [if_neg hm] at hres
          refine ih _ ?_ path cost stats hres hne
          have hinv1 : SearchInv pf start_id
              { st with
                open_list := rest,
                closed_set := current.node_id :: st.closed_set,
                nodes_explored := st.nodes_explored + 1 } := by
            obtain ⟨gc, hgc, hglec⟩ := hinv.heapG current hcurmem
            refine ⟨hinv.gstart, hinv.pstart,
              List.mem_cons_of_mem _ hinv.startClosed,
              fun e he => hinv.heapG e (hperm.mem_iff.mpr (List.mem_cons_of_mem _ he)),
              ?_, hinv.domParents, ?_, ?_⟩
            · intro v hv
              rcases List.mem_cons.mp hv with hveq | hvmem
              · subst hveq
                exact ⟨gc, hgc⟩
              · exact hinv.closedG v hvmem
            · intro v u hu
              obtain ⟨humem, hrest2⟩ := hinv.parentInv v u hu
              exact ⟨List.mem_cons_of_mem _ humem, hrest2⟩
            · intro v hv
              simp only [List.length_cons, Nat.add_sub_cancel]
              rcases List.mem_cons.mp hv with hveq | hvmem
              · subst hveq
                by_cases hcs : current.node_id = start_id
                · rw [hcs]
                  exact ChainLe_start _ _ _
                · obtain ⟨u, hu⟩ := hinv.domParents current.node_id gc hgc hcs
                  have humem := (hinv.parentInv current.node_id u hu).1
                  have hchu := hinv.chainBound u humem
                  have hlenpos : 0 < st.closed_set.length :=
                    List.length_pos.mpr (List.ne_nil_of_mem humem)
                  obtain ⟨k, hk⟩ : ∃ k, st.closed_set.length = k + 1 :=
                    ⟨st.closed_set.length - 1, by omega⟩
                  rw [hk]
                  refine Or.inr ⟨u, hu, ?_⟩
                  rw [hk] at hchu
                  simpa using hchu
              · exact ChainLe_mono st.parents start_id _ _ (by omega) v
                  (hinv.chainBound v hvmem)
          exact expandNeighbors_inv pf start_id goal_id current hwf
            (pf.road_network.get_neighbors current.node_id) _ hinv1
            (List.mem_cons_self _ _)

/-- C1: for every path returned by `find_path` (non-empty result list),
the returned total cost is at least the sum of the static edge distances
along that path, provided every registered signal is well formed (so that
the wait-time surcharge priced into each edge is nonnegative). -/
theorem returned_cost_ge_static_sum (pf : AStarPathfinder)
    (start_id goal_id : Int) (start_time : ℚ)
    (hwf : ∀ kv ∈ pf.traffic_predictor.traffic_lights, kv.2.wf)
    (path : List Int) (cost : WithTop ℚ) (stats : List (String × ℚ))
    (hrun : pf.find_path start_id goal_id start_time = (path, cost, stats))
    (hne : path ≠ []) :
    ((pathStaticSum pf.road_network path : ℚ) : WithTop ℚ) ≤ cost := by
  unfold AStarPathfinder.find_path AStarPathfinder.find_path_run at hrun
  by_cases hsg : start_id = goal_id
  · rw [if_pos hsg] at hrun
    simp only [Prod.mk.injEq] at hrun
    obtain ⟨hpath, hcost, _⟩ := hrun
    rw [← hpath, ← hcost]
    show ((pathStaticSum pf.road_network [start_id] : ℚ) : WithTop ℚ) ≤
      ((0 : ℚ) : WithTop ℚ)
    show (((0 : ℚ) : ℚ) : WithTop ℚ) ≤ ((0 : ℚ) : WithTop ℚ)
    exact le_refl _
  · rw [if_neg hsg] at hrun
    by_cases habs : ¬ pf.road_network.has_node start_id ∨
        ¬ pf.road_network.has_node goal_id
    · rw [if_pos habs] at hrun
      simp only [Prod.mk.injEq] at hrun
      exact absurd hrun.1.symm hne
    · rw [if_neg habs] at hrun
      obtain ⟨F, hF⟩ : ∃ F, searchFuel pf = F + 1 :=
        ⟨pf.road_network.edges.length + 1, rfl⟩
      rw [hF] at hrun
      have hpop0 : heappop (initState pf start_id goal_id start_time).open_list =
          some (PathNode.mk start_id 0 (pf.heuristic start_id goal_id) none, []) := rfl
      simp only [searchLoop] at hrun
      rw [hpop0] at hrun
      dsimp only [initState] at hrun
      rw [if_neg hsg] at hrun
      rw [if_neg (List.not_mem_nil start_id)] at hrun
      refine searchLoop_cost_bound pf start_id goal_id hwf _ _ ?_ path cost stats
        hrun hne
      refine expandNeighbors_inv pf start_id goal_id _ hwf _ _ ?_ ?_
      · refine ⟨?_, ?_, ?_, ?_, ?_, ?_, ?_, ?_⟩
        · show (fun n => if n = start_id then some (0 : ℚ) else none) start_id = some 0
          simp
        · rfl
        · exact List.mem_singleton.mpr rfl
        · intro e he
          exact absurd he (List.not_mem_nil e)
        · intro v hv
          rcases List.mem_singleton.mp hv with rfl
          exact ⟨0, by simp⟩
        · intro v gv hgv hvs
          by_cases hvstart : v = start_id
          · exact absurd hvstart hvs
          · simp only [if_neg hvstart] at hgv
            cases hgv
        · intro v u hu
          cases hu
        · intro v hv
          have hveq := List.mem_singleton.mp hv
          subst v
          exact ChainLe_start _ _ _
      · exact List.mem_singleton.mpr rfl

/-- Witness for C1: the concrete two-node network (no signals, so every
registered signal is vacuously well formed) returns path [1, 2] at cost
1000, which is at least the static sum 1000. -/
theorem returned_cost_ge_static_sum_witness :
    ((pathStaticSum exPf.road_network [1, 2] : ℚ) : WithTop ℚ) ≤
      ((1000 : ℚ) : WithTop ℚ) := by
  have hrun : exPf.find_path 1 2 0 =
      ([1, 2], ((1000 : ℚ) : WithTop ℚ),
        [("nodes_explored", 1), ("traffic_lights_encountered", 0),
          ("total_wait_time", 0)]) := by
    norm_num [AStarPathfinder.find_path, AStarPathfinder.find_path_run, searchLoop,
      searchFuel, initState, expandNeighbors, considerNeighbor, heappush, heappop,
      heapSiftdownLoop, heapSiftdownGo, heapSiftupLoop, heapSiftupGo, renderStats,
      reconstructPath, exPf, exNet,
      RoadNetwork.has_node, RoadNetwork.get_node, RoadNetwork.get_neighbors,
      RoadNetwork.get_edge_distance, AStarPathfinder.heuristic,
      AStarPathfinder.get_edge_cost, TrafficLightPredictor.get_wait_time,
      List.lookup, PathNode.f_cost, pnLt,
      show (((2 : Int) == 1)) = false from rfl]
    rfl
  exact returned_cost_ge_static_sum exPf 1 2 0
    (by intro kv hkv; exact absurd hkv (List.not_mem_nil kv))
    [1, 2] (((1000 : ℚ) : WithTop ℚ))
    [("nodes_explored", 1), ("traffic_lights_encountered", 0), ("total_wait_time", 0)]
    hrun (by simp)

/-- A membered key always looks up to something. -/
theorem lookup_exists_of_mem {α β : Type} [BEq α] [LawfulBEq α]
    (l : List (α × β)) (k : α) (v : β) (h : (k, v) ∈ l) :
    ∃ c, l.lookup k = some c := by
  induction l with
  | nil => cases h
  | cons hd tl ih =>
    obtain ⟨k1, v1⟩ := hd
    rw [List.lookup]
    cases hkk : (k == k1) with
    | true => exact ⟨v1, rfl⟩
    | false =>
      rcases List.mem_cons.mp h with heq | hmem
      · cases heq
        rw [BEq.refl] at hkk
        cases hkk
      · exact ih hmem

/-- Every listed neighbor has a static distance entry. -/
theorem neighbor_edge_exists (net : RoadNetwork) (u v : Int)
    (h : v ∈ net.get_neighbors u) :
    ∃ d, net.get_edge_distance u v = some d := by
  unfold RoadNetwork.get_neighbors at h
  obtain ⟨kv, hkv, hif⟩ := List.mem_filterMap.mp h
  by_cases hu : kv.1.1 = u
  · rw [if_pos hu] at hif
    cases hif
    have hmem : ((u, kv.1.2), kv.2) ∈ net.edges := by
      have : kv = ((u, kv.1.2), kv.2) := by
        obtain ⟨⟨a, b⟩, c⟩ := kv
        simp only at hu
        rw [hu]
      rw [← this]
      exact hkv
    exact lookup_exists_of_mem net.edges (u, kv.1.2) kv.2 hmem
  · rw [if_neg hu] at hif
    cases hif

/-- A listed neighbor never has an infinite edge cost. -/
theorem neighbor_cost_ne_top (pf : AStarPathfinder) (u v : Int) (t : ℚ)
    (h : v ∈ pf.road_network.get_neighbors u) :
    pf.get_edge_cost u v t ≠ ⊤ := by
  obtain ⟨d, hd⟩ := neighbor_edge_exists pf.road_network u v h
  unfold AStarPathfinder.get_edge_cost
  rw [hd]
  exact WithTop.coe_ne_top

/-- The neighbor loop never touches the closed set. -/
theorem expandNeighbors_closed_set (pf : AStarPathfinder) (goal_id : Int)
    (current : PathNode) :
    ∀ nbrs st, (expandNeighbors pf goal_id current nbrs st).closed_set =
      st.closed_set := by
  intro nbrs
  induction nbrs with
  | nil => intro st; rw [expandNeighbors]
  | cons n rest ih =>
    intro st
    rw [expandNeighbors]
    split
    · exact ih st
    · dsimp only
      split
      · exact ih st
      · rw [ih, considerNeighbor_closed_set]

/-- The neighbor loop never touches the explored counter. -/
theorem expandNeighbors_nodes_explored (pf : AStarPathfinder) (goal_id : Int)
    (current : PathNode) :
    ∀ nbrs st, (expandNeighbors pf goal_id current nbrs st).nodes_explored =
      st.nodes_explored := by
  intro nbrs
  induction nbrs with
  | nil => intro st; rw [expandNeighbors]
  | cons n rest ih =>
    intro st
    rw [expandNeighbors]
    split
    · exact ih st
    · dsimp only
      split
      · exact ih st
      · rw [ih, considerNeighbor_nodes_explored]

/-- One considered neighbor only extends the g-cost domain. -/
theorem considerNeighbor_gmono (pf : AStarPathfinder) (goal_id : Int)
    (current : PathNode) (n : Int) (st : SearchState) (v : Int)
    (h : st.g_costs v ≠ none) :
    (considerNeighbor pf goal_id current n st).g_costs v ≠ none := by
  by_cases himp : improves pf current n st
  · rw [(considerNeighbor_improve_fields pf goal_id current n st himp).1]
    by_cases hv : v = n
    · simp [hv]
    · simp only [if_neg hv]
      exact h
  · rw [(considerNeighbor_stable_fields pf goal_id current n st himp).1]
    exact h

/-- The neighbor loop only extends the g-cost domain. -/
theorem expandNeighbors_gmono (pf : AStarPathfinder) (goal_id : Int)
    (current : PathNode) :
    ∀ nbrs st v, st.g_costs v ≠ none →
      (expandNeighbors pf goal_id current nbrs st).g_costs v ≠ none := by
  intro nbrs
  induction nbrs with
  | nil => intro st v h; rw [expandNeighbors]; exact h
  | cons n rest ih =>
    intro st v h
    rw [expandNeighbors]
    split
    · exact ih st v h
    · dsimp only
      split
      · exact ih st v h
      · exact ih _ v (considerNeighbor_gmono pf goal_id current n st v h)

/-- One considered neighbor keeps every existing frontier entry. -/
theorem considerNeighbor_open_super (pf : AStarPathfinder) (goal_id : Int)
    (current : PathNode) (n : Int) (st : SearchState) (e : PathNode)
    (h : e ∈ st.open_list) :
    e ∈ (considerNeighbor pf goal_id current n st).open_list := by
  by_cases himp : improves pf current n st
  · rw [(considerNeighbor_improve_fields pf goal_id current n st himp).2.2]
    exact (heappush_perm st.open_list _).mem_iff.mpr (List.mem_cons_of_mem _ h)
  · rw [(considerNeighbor_stable_fields pf goal_id current n st himp).2.2]
    exact h

/-- The neighbor loop keeps every existing frontier entry. -/
theorem expandNeighbors_open_super (pf : AStarPathfinder) (goal_id : Int)
    (current : PathNode) :
    ∀ nbrs st e, e ∈ st.open_list →
      e ∈ (expandNeighbors pf goal_id current nbrs st).open_list := by
  intro nbrs
  induction nbrs with
  | nil => intro st e h; rw [expandNeighbors]; exact h
  | cons n rest ih =>
    intro st e h
    rw [expandNeighbors]
    split
    · exact ih st e h
    · dsimp only
      split
      · exact ih st e h
      · exact ih _ e (considerNeighbor_open_super pf goal_id current n st e h)

/-- Every frontier entry after the neighbor loop is an old entry or one
pushed for a listed neighbor. -/
theorem expandNeighbors_open_mem (pf : AStarPathfinder) (goal_id : Int)
    (current : PathNode) :
    ∀ nbrs st e, e ∈ (expandNeighbors pf goal_id current nbrs st).open_list →
      e ∈ st.open_list ∨ e.node_id ∈ nbrs := by
  intro nbrs
  induction nbrs with
  | nil =>
    intro st e h
    rw [expandNeighbors] at h
    exact Or.inl h
  | cons n rest ih =>
    intro st e h
    rw [expandNeighbors] at h
    split at h
    · rcases ih st e h with h2 | h2
      · exact Or.inl h2
      · exact Or.inr (List.mem_cons_of_mem _ h2)
    · dsimp only at h
      split at h
      · rcases ih st e h with h2 | h2
        · exact Or.inl h2
        · exact Or.inr (List.mem_cons_of_mem _ h2)
      · rcases ih _ e h with h2 | h2
        · by_cases himp : improves pf current n st
          · rw [(considerNeighbor_improve_fields pf goal_id current n st himp).2.2] at h2
            rcases List.mem_cons.mp ((heappush_perm st.open_list _).mem_iff.mp h2) with heq | hold
            · subst heq
              exact Or.inr (List.mem_cons_self _ _)
            · exact Or.inl hold
          · rw [(considerNeighbor_stable_fields pf goal_id current n st himp).2.2] at h2
            exact Or.inl h2
        · exact Or.inr (List.mem_cons_of_mem _ h2)

/-- One considered neighbor: any new g-cost entry has a matching frontier
entry. -/
theorem considerNeighbor_domCover (pf : AStarPathfinder) (goal_id : Int)
    (current : PathNode) (n : Int) (st : SearchState) (v : Int)
    (h : (considerNeighbor pf goal_id current n st).g_costs v ≠ none) :
    st.g_costs v ≠ none ∨
      ∃ e ∈ (considerNeighbor pf goal_id current n st).open_list,
        e.node_id = v := by
  by_cases himp : improves pf current n st
  · obtain ⟨hgf, _, hof⟩ :=
      considerNeighbor_improve_fields pf goal_id current n st himp
    by_cases hv : v = n
    · subst hv
      refine Or.inr ⟨PathNode.mk v (tentativeG pf current v st)
        (pf.heuristic v goal_id) (some current.node_id), ?_, rfl⟩
      rw [hof]
      exact (heappush_perm st.open_list _).mem_iff.mpr (List.mem_cons_self _ _)
    · rw [hgf] at h
      simp only [if_neg hv] at h
      exact Or.inl h
  · rw [(considerNeighbor_stable_fields pf goal_id current n st himp).1] at h
    exact Or.inl h

/-- After the neighbor loop, any new g-cost entry has a matching frontier
entry. -/
theorem expandNeighbors_domCover (pf : AStarPathfinder) (goal_id : Int)
    (current : PathNode) :
    ∀ nbrs st v,
      (expandNeighbors pf goal_id current nbrs st).g_costs v ≠ none →
      st.g_costs v ≠ none ∨
        ∃ e ∈ (expandNeighbors pf goal_id current nbrs st).open_list,
          e.node_id = v := by
  intro nbrs
  induction nbrs with
  | nil =>
    intro st v h
    rw [expandNeighbors] at h ⊢
    exact Or.inl h
  | cons n rest ih =>
    intro st v h
    rw [expandNeighbors] at h ⊢
    by_cases hmem : n ∈ st.closed_set
    · rw [if_pos hmem] at h ⊢
      exact ih st v h
    · rw [if_neg hmem] at h ⊢
      dsimp only at h ⊢
      by_cases htop : pf.get_edge_cost current.node_id n st.current_time = ⊤
      · rw [if_pos htop] at h ⊢
        exact ih st v h
      · rw [if_neg htop] at h ⊢
        rcases ih _ v h with h2 | h2
        · rcases considerNeighbor_domCover pf goal_id current n st v h2 with h3 | ⟨e, he, hev⟩
          · exact Or.inl h3
          · exact Or.inr ⟨e,
              expandNeighbors_open_super pf goal_id current rest _ e he, hev⟩
        · exact Or.inr h2

/-- The neighbor loop covers every listed neighbor: afterwards it is
closed or has a g-cost entry (its edge cost is finite because it is a
listed neighbor). -/
theorem expandNeighbors_cover (pf : AStarPathfinder) (goal_id : Int)
    (current : PathNode) :
    ∀ nbrs st, (∀ v ∈ nbrs, ∀ t : ℚ,
        pf.get_edge_cost current.node_id v t ≠ ⊤) →
      ∀ v ∈ nbrs, v ∈ st.closed_set ∨
        (expandNeighbors pf goal_id current nbrs st).g_costs v ≠ none := by
  intro nbrs
  induction nbrs with
  | nil =>
    intro st _ v hv
    cases hv
  | cons n rest ih =>
    intro st hfin v hv
    rw [expandNeighbors]
    by_cases hmem : n ∈ st.closed_set
    · rw [if_pos hmem]
      rcases List.mem_cons.mp hv with rfl | hvrest
      · exact Or.inl hmem
      · exact ih st (fun w hw t => hfin w (List.mem_cons_of_mem _ hw) t) v hvrest
    · rw [if_neg hmem]
      dsimp only
      rw [if_neg (hfin n (List.mem_cons_self _ _) st.current_time)]
      rcases List.mem_cons.mp hv with rfl | hvrest
      · refine Or.inr (expandNeighbors_gmono pf goal_id current rest _ v ?_)
        by_cases himp : improves pf current v st
        · rw [(considerNeighbor_improve_fields pf goal_id current v st himp).1]
          simp
        · rw [(considerNeighbor_stable_fields pf goal_id current v st himp).1]
          unfold improves at himp
          push_neg at himp
          obtain ⟨hne, _⟩ := himp
          exact hne
      · have hih := ih (considerNeighbor pf goal_id current n st)
          (fun w hw t => hfin w (List.mem_cons_of_mem _ hw) t) v hvrest
        rcases hih with hcl | hg
        · rw [considerNeighbor_closed_set] at hcl
          exact Or.inl hcl
        · exact Or.inr hg

/-- Pushing grows the heap by one element. -/
theorem heappush_length (heap : List PathNode) (item : PathNode) :
    (heappush heap item).length = heap.length + 1 := by
  have h := (heappush_perm heap item).length_eq
  simpa using h

/-- Popping shrinks the heap by one element. -/
theorem heappop_length (heap : List PathNode) (x : PathNode)
    (out : List PathNode) (h : heappop heap = some (x, out)) :
    heap.length = out.length + 1 := by
  have h2 := (heappop_perm heap x out h).length_eq
  simpa using h2

/-- One considered neighbor grows the frontier by at most one entry. -/
theorem considerNeighbor_open_length (pf : AStarPathfinder) (goal_id : Int)
    (current : PathNode) (n : Int) (st : SearchState) :
    (considerNeighbor pf goal_id current n st).open_list.length ≤
      st.open_list.length + 1 := by
  by_cases himp : improves pf current n st
  · rw [(considerNeighbor_improve_fields pf goal_id current n st himp).2.2]
    rw [heappush_length]
  · rw [(considerNeighbor_stable_fields pf goal_id current n st himp).2.2]
    omega

/-- The neighbor loop grows the frontier by at most one entry per listed
neighbor. -/
theorem expandNeighbors_open_length (pf : AStarPathfinder) (goal_id : Int)
    (current : PathNode) :
    ∀ nbrs st, (expandNeighbors pf goal_id current nbrs st).open_list.length ≤
      st.open_list.length + nbrs.length := by
  intro nbrs
  induction nbrs with
  | nil => intro st; rw [expandNeighbors]; simp
  | cons n rest ih =>
    intro st
    rw [expandNeighbors]
    split
    · have := ih st
      simp only [List.length_cons]
      omega
    · dsimp only
      split
      · have := ih st
        simp only [List.length_cons]
        omega
      · have h1 := ih (considerNeighbor pf goal_id current n st)
        have h2 := considerNeighbor_open_length pf goal_id current n st
        simp only [List.length_cons]
        omega

/-- The number of listed neighbors equals the number of edges leaving the
node. -/
theorem get_neighbors_length (net : RoadNetwork) (u : Int) :
    (net.get_neighbors u).length =
      net.edges.countP (fun kv => decide (kv.1.1 = u)) := by
  unfold RoadNetwork.get_neighbors
  induction net.edges with
  | nil => rfl
  | cons kv rest ih =>
    rw [List.filterMap_cons, List.countP_cons]
    by_cases hk : kv.1.1 = u
    · have h2 : (decide (kv.1.1 = u)) = true := decide_eq_true hk
      rw [if_pos hk, h2]
      simp only [List.length_cons, ih]
      simp
    · have h2 : (decide (kv.1.1 = u)) = false := decide_eq_false hk
      rw [if_neg hk, h2]
      simp only [ih]
      simp

/-- Splitting the count of edges whose source is still unexplored when a
new node is closed. -/
theorem countP_closed_split (edges : List ((Int × Int) × ℚ)) (u : Int)
    (closed : List Int) (hu : u ∉ closed) :
    edges.countP (fun kv => decide (kv.1.1 ∉ (u :: closed))) +
      edges.countP (fun kv => decide (kv.1.1 = u)) =
    edges.countP (fun kv => decide (kv.1.1 ∉ closed)) := by
  induction edges with
  | nil => rfl
  | cons kv rest ih =>
    rw [List.countP_cons, List.countP_cons, List.countP_cons]
    by_cases hk : kv.1.1 = u
    · have h1 : (decide (kv.1.1 ∉ (u :: closed))) = false := by
        simp [hk]
      have h2 : (decide (kv.1.1 = u)) = true := by simp [hk]
      have h3 : (decide (kv.1.1 ∉ closed)) = true := by
        simp [hk]
        exact hu
      rw [h1, h2, h3]
      simp only [Bool.false_eq_true, if_false, if_true]
      omega
    · have h1 : (decide (kv.1.1 ∉ (u :: closed))) = decide (kv.1.1 ∉ closed) := by
        by_cases hc : kv.1.1 ∈ closed
        · simp [hc]
        · simp [hc, hk]
      have h2 : (decide (kv.1.1 = u)) = false := by simp [hk]
      rw [h1, h2]
      simp only [Bool.false_eq_true, if_false]
      omega

/-- Closing a popped node and expanding its neighbors preserves the
reachability invariant. -/
theorem reachInv_step (pf : AStarPathfinder) (start_id goal_id : Int)
    (st : SearchState) (current : PathNode) (rest : List PathNode)
    (hinv : ReachInv pf start_id st)
    (hpop : heappop st.open_list = some (current, rest))
    (hnotc : current.node_id ∉ st.closed_set) :
    ReachInv pf start_id (expandNeighbors pf goal_id current
      (pf.road_network.get_neighbors current.node_id)
      { st with
        open_list := rest,
        closed_set := current.node_id :: st.closed_set,
        nodes_explored := st.nodes_explored + 1 }) := by
  have hperm := heappop_perm st.open_list current rest hpop
  have hcurreach : Reaches pf.road_network start_id current.node_id :=
    hinv.heapReach current (hperm.mem_iff.mpr (List.mem_cons_self _ _))
  have hclosed2 := expandNeighbors_closed_set pf goal_id current
    (pf.road_network.get_neighbors current.node_id)
    { st with
      open_list := rest,
      closed_set := current.node_id :: st.closed_set,
      nodes_explored := st.nodes_explored + 1 }
  have hexplored2 := expandNeighbors_nodes_explored pf goal_id current
    (pf.road_network.get_neighbors current.node_id)
    { st with
      open_list := rest,
      closed_set := current.node_id :: st.closed_set,
      nodes_explored := st.nodes_explored + 1 }
  refine ⟨?_, ?_, ?_, ?_, ?_, ?_, ?_⟩
  · rcases hinv.startIn with hcl | ⟨e, he, hes⟩
    · rw [hclosed2]
      exact Or.inl (List.mem_cons_of_mem _ hcl)
    · rcases List.mem_cons.mp (hperm.mem_iff.mp he) with heq | hrest
      · rw [hclosed2]
        refine Or.inl ?_
        rw [← hes, heq]
        exact List.mem_cons_self _ _
      · exact Or.inr ⟨e,
          expandNeighbors_open_super pf goal_id current _ _ e hrest, hes⟩
  · rw [hclosed2]
    exact List.Nodup.cons hnotc hinv.closedNodup
  · rw [hclosed2, hexplored2]
    simp [hinv.countEq]
  · rw [hclosed2]
    intro v hv
    rcases List.mem_cons.mp hv with hve | hvm
    · rw [hve]
      exact hcurreach
    · exact hinv.closedReach v hvm
  · intro e he
    rcases expandNeighbors_open_mem pf goal_id current _ _ e he with hold | hnbr
    · refine hinv.heapReach e (hperm.mem_iff.mpr (List.mem_cons_of_mem _ hold))
    · exact Reaches.step current.node_id e.node_id hcurreach hnbr
  · intro v hg
    rcases expandNeighbors_domCover pf goal_id current _ _ v hg with hold | hex
    · rcases hinv.domCover v hold with hcl | ⟨e, he, hev⟩
      · rw [hclosed2]
        exact Or.inl (List.mem_cons_of_mem _ hcl)
      · rcases List.mem_cons.mp (hperm.mem_iff.mp he) with heq | hrest
        · rw [hclosed2]
          refine Or.inl ?_
          rw [← hev, heq]
          exact List.mem_cons_self _ _
        · refine Or.inr ⟨e, ?_, hev⟩
          exact expandNeighbors_open_super pf goal_id current _ _ e hrest
    · exact Or.inr hex
  · rw [hclosed2]
    intro u hu v hv
    rcases List.mem_cons.mp hu with hue | hum
    · have hcov := expandNeighbors_cover pf goal_id current
        (pf.road_network.get_neighbors current.node_id)
        { st with
          open_list := rest,
          closed_set := current.node_id :: st.closed_set,
          nodes_explored := st.nodes_explored + 1 }
        (fun w hw t => neighbor_cost_ne_top pf current.node_id w t hw)
        v (by rw [← hue]; exact hv)
      rcases hcov with hcl | hg
      · exact Or.inl hcl
      · exact Or.inr hg
    · rcases hinv.nbrCover u hum v hv with hcl | hg
      · exact Or.inl (List.mem_cons_of_mem _ hcl)
      · exact Or.inr (expandNeighbors_gmono pf goal_id current _ _ v hg)

/-- With an unreachable goal, the search loop exhausts its frontier and
reports failure, while maintaining the reachability invariant. -/
theorem searchLoop_exhausts (pf : AStarPathfinder) (start_id goal_id : Int)
    (hgoal : ¬ Reaches pf.road_network start_id goal_id) :
    ∀ (fuel : Nat) (st : SearchState), ReachInv pf start_id st →
      phi pf st < fuel →
      ∃ stF, searchLoop pf goal_id fuel st = (([], ⊤, renderStats stF), stF) ∧
        ReachInv pf start_id stF ∧ stF.open_list = [] := by
  intro fuel
  induction fuel with
  | zero =>
    intro st _ hphi
    cases hphi
  | succ f ih =>
    intro st hinv hphi
    cases hpop : heappop st.open_list with
    | none =>
      refine ⟨st, ?_, hinv, (heappop_eq_none_iff st.open_list).mp hpop⟩
      simp only [searchLoop, hpop]
    | some pr =>
      obtain ⟨current, rest⟩ := pr
      have hperm := heappop_perm st.open_list current rest hpop
      have hlen := heappop_length st.open_list current rest hpop
      have hreachcur : Reaches pf.road_network start_id current.node_id :=
        hinv.heapReach current (hperm.mem_iff.mpr (List.mem_cons_self _ _))
      have hgne : current.node_id ≠ goal_id := by
        intro hc
        exact hgoal (hc ▸ hreachcur)
      simp only [searchLoop, hpop]
      rw [if_neg hgne]
      by_cases hmem : current.node_id ∈ st.closed_set
      · rw [if_pos hmem]
        refine ih { st with open_list := rest } ?_ ?_
        · refine ⟨?_, hinv.closedNodup, hinv.countEq,
            hinv.closedReach, ?_, ?_, hinv.nbrCover⟩
          · rcases hinv.startIn with hcl | ⟨e, he, hes⟩
            · exact Or.inl hcl
            · rcases List.mem_cons.mp (hperm.mem_iff.mp he) with heq | hrest
              · refine Or.inl ?_
                rw [← hes, heq]
                exact hmem
              · exact Or.inr ⟨e, hrest, hes⟩
          · intro e he
            exact hinv.heapReach e (hperm.mem_iff.mpr (List.mem_cons_of_mem _ he))
          · intro v hg
            rcases hinv.domCover v hg with hcl | ⟨e, he, hev⟩
            · exact Or.inl hcl
            · rcases List.mem_cons.mp (hperm.mem_iff.mp he) with heq | hrest
              · refine Or.inl ?_
                rw [← hev, heq]
                exact hmem
              · exact Or.inr ⟨e, hrest, hev⟩
        · unfold phi at hphi ⊢
          simp only at hphi ⊢
          omega
      · rw [if_neg hmem]
        refine ih _ (reachInv_step pf start_id goal_id st current rest hinv hpop hmem) ?_
        have hopen := expandNeighbors_open_length pf goal_id current
          (pf.road_network.get_neighbors current.node_id)
          { st with
            open_list := rest,
            closed_set := current.node_id :: st.closed_set,
            nodes_explored := st.nodes_explored + 1 }
        have hclosed2 := expandNeighbors_closed_set pf goal_id current
          (pf.road_network.get_neighbors current.node_id)
          { st with
            open_list := rest,
            closed_set := current.node_id :: st.closed_set,
            nodes_explored := st.nodes_explored + 1 }
        have hsplit := countP_closed_split pf.road_network.edges current.node_id
          st.closed_set hmem
        have hdeg := get_neighbors_length pf.road_network current.node_id
        unfold phi at hphi ⊢
        rw [hclosed2]
        simp only at hphi hopen ⊢
        omega

/-- At frontier exhaustion, every node reachable from the start has been
closed. -/
theorem reachable_closed_of_empty (pf : AStarPathfinder) (start_id : Int)
    (st : SearchState) (hinv : ReachInv pf start_id st)
    (hempty : st.open_list = []) :
    ∀ v, Reaches pf.road_network start_id v → v ∈ st.closed_set := by
  intro v hv
  induction hv with
  | refl =>
    rcases hinv.startIn with hcl | ⟨e, he, _⟩
    · exact hcl
    · rw [hempty] at he
      cases he
  | step u w hu hw ih =>
    rcases hinv.nbrCover u ih w hw with hcl | hg
    · exact hcl
    · rcases hinv.domCover w hg with hcl | ⟨e, he, _⟩
      · exact hcl
      · rw [hempty] at he
        cases he

/-- C4: for valid, distinct start and goal with the goal unreachable
from the start, `find_path` returns the empty path, cost +infinity, and
stats whose nodes-explored count equals the size of the set of nodes
reachable from the start (given by any duplicate-free enumeration L of
that set). -/
theorem unreachable_goal_failed (pf : AStarPathfinder)
    (start_id goal_id : Int) (start_time : ℚ)
    (hs : pf.road_network.has_node start_id = true)
    (hg : pf.road_network.has_node goal_id = true)
    (hne : start_id ≠ goal_id)
    (hunreach : ¬ Reaches pf.road_network start_id goal_id)
    (L : List Int) (hLnodup : L.Nodup)
    (hLmem : ∀ v, v ∈ L ↔ Reaches pf.road_network start_id v) :
    (pf.find_path start_id goal_id start_time).1 = [] ∧
      (pf.find_path start_id goal_id start_time).2.1 = ⊤ ∧
      (pf.find_path start_id goal_id start_time).2.2.lookup "nodes_explored" =
        some ((L.length : ℕ) : ℚ) := by
  have hopen0 : (initState pf start_id goal_id start_time).open_list =
      [PathNode.mk start_id 0 (pf.heuristic start_id goal_id) none] := rfl
  have hclosed0 : (initState pf start_id goal_id start_time).closed_set = [] := rfl
  have hinv0 : ReachInv pf start_id (initState pf start_id goal_id start_time) := by
    refine ⟨?_, ?_, ?_, ?_, ?_, ?_, ?_⟩
    · rw [hopen0]
      exact Or.inr ⟨PathNode.mk start_id 0 (pf.heuristic start_id goal_id) none,
        List.mem_singleton.mpr rfl, rfl⟩
    · rw [hclosed0]
      exact List.nodup_nil
    · rfl
    · rw [hclosed0]
      intro v hv
      exact absurd hv (List.not_mem_nil v)
    · rw [hopen0]
      intro e he
      have heq := List.mem_singleton.mp he
      rw [heq]
      exact Reaches.refl
    · intro v hgv
      by_cases hv : v = start_id
      · rw [hopen0]
        exact Or.inr ⟨PathNode.mk start_id 0 (pf.heuristic start_id goal_id) none,
          List.mem_singleton.mpr rfl, hv.symm⟩
      · exfalso
        apply hgv
        show (if v = start_id then some (0 : ℚ) else none) = none
        rw [if_neg hv]
    · rw [hclosed0]
      intro u hu
      exact absurd hu (List.not_mem_nil u)
  have hphi0 : phi pf (initState pf start_id goal_id start_time) < searchFuel pf := by
    unfold phi searchFuel
    rw [hopen0, hclosed0]
    have hle := List.countP_le_length
      (p := fun (kv : (Int × Int) × ℚ) => decide (kv.1.1 ∉ ([] : List Int)))
      (l := pf.road_network.edges)
    simp only [List.length_singleton]
    omega
  obtain ⟨stF, heqF, hinvF, hopenF⟩ := searchLoop_exhausts pf start_id goal_id
    hunreach (searchFuel pf) (initState pf start_id goal_id start_time) hinv0 hphi0
  have hfp : pf.find_path start_id goal_id start_time =
      ([], ⊤, renderStats stF) := by
    unfold AStarPathfinder.find_path AStarPathfinder.find_path_run
    rw [if_neg hne, if_neg (by rw [hs, hg]; simp), heqF]
  refine ⟨by rw [hfp], by rw [hfp], ?_⟩
  rw [hfp]
  have hcount : stF.nodes_explored = L.length := by
    have hperm : stF.closed_set.Perm L := by
      rw [List.perm_ext_iff_of_nodup hinvF.closedNodup hLnodup]
      intro a
      rw [hLmem a]
      constructor
      · intro ha
        exact hinvF.closedReach a ha
      · intro ha
        exact reachable_closed_of_empty pf start_id stF hinvF hopenF a ha
    rw [hinvF.countEq, hperm.length_eq]
  show (renderStats stF).lookup "nodes_explored" = some ((L.length : ℕ) : ℚ)
  unfold renderStats
  rw [List.lookup]
  simp only [BEq.refl]
  rw [hcount]

/-- Everything reachable from node 1 in the concrete disconnected network
lies in {1, 2}. -/
theorem exNet2_reach_subset : ∀ v, Reaches exNet2 1 v → v ∈ ([1, 2] : List Int) := by
  have h1 : exNet2.get_neighbors 1 = [2] := rfl
  have h2 : exNet2.get_neighbors 2 = [1] := rfl
  intro v hv
  induction hv with
  | refl => exact List.mem_cons_self _ _
  | step u w hu hw ih =>
    rcases List.mem_cons.mp ih with hu1 | hu2
    · rw [← hu1] at h1
      rw [h1] at hw
      have := List.mem_singleton.mp hw
      rw [this]
      exact List.mem_cons_of_mem _ (List.mem_cons_self _ _)
    · have hu2b := List.mem_singleton.mp hu2
      rw [← hu2b] at h2
      rw [h2] at hw
      have := List.mem_singleton.mp hw
      rw [this]
      exact List.mem_cons_self _ _

/-- Witness for C4: in the concrete disconnected network, the search for
1 → 3 fails with an empty path, infinite cost, and nodes_explored = 2,
the size of the reachable set {1, 2}. -/
theorem unreachable_goal_failed_witness :
    (exPf2.find_path 1 3 0).1 = [] ∧
      (exPf2.find_path 1 3 0).2.1 = ⊤ ∧
      (exPf2.find_path 1 3 0).2.2.lookup "nodes_explored" =
        some ((([1, 2] : List Int).length : ℕ) : ℚ) := by
  have hunreach : ¬ Reaches exPf2.road_network 1 3 := by
    intro hr
    have := exNet2_reach_subset 3 hr
    simp at this
  have hLmem : ∀ v, v ∈ ([1, 2] : List Int) ↔ Reaches exPf2.road_network 1 v := by
    intro v
    constructor
    · intro hv
      rcases List.mem_cons.mp hv with hv1 | hv2
      · rw [hv1]
        exact Reaches.refl
      · have hv2b := List.mem_singleton.mp hv2
        rw [hv2b]
        refine Reaches.step 1 2 Reaches.refl ?_
        show (2 : Int) ∈ exNet2.get_neighbors 1
        rw [show exNet2.get_neighbors 1 = [2] from rfl]
        exact List.mem_singleton.mpr rfl
    · exact exNet2_reach_subset v
  exact unreachable_goal_failed exPf2 1 3 0 rfl rfl (by decide) hunreach
    [1, 2] (by decide) hLmem
